import Mathlib

/-!
Verification of the dynamic protobuf descriptor-resolution and runtime codec
layer of the gMCP repository (TypeScript sources: `reflection.ts` /
`descriptor_cache` in two revisions, `codec.ts`, `real_client.ts`), as a
shallow embedding in Lean 4.

Conventions used throughout:
* JavaScript byte buffers (`Uint8Array`) are `List Nat`; every access is via
  guarded indexing, mirroring the bounds checks of the source loops.
* JavaScript objects holding dynamic values are modelled with explicit Lean
  inductives (`JsVal` and friends); absent keys read as `undefined`.
* Stateful classes (`DescriptorCache`) become explicit state passing; the
  async reflection stream becomes a pure fold over an event list.
* Third-party library calls (protobufjs, @bufbuild) that take part in a
  claim are modelled separately and flagged `Modelled from the spec:`.
-/

namespace GMcp

/-! ## Part 1: PGV rule evaluation (`RealMcpClient.applyPgvIndexRules`)

Source: `src/client/ts/src/real_client.ts`, lines 188-220.  The candidate
input is a JavaScript object; we model its values with `JsVal` and the
object itself as an association list (first binding wins, as in JS property
lookup). -/

/-- A JavaScript runtime value as far as `applyPgvIndexRules` inspects it:
`undefined`, `null`, a string, or anything else (numbers, objects, ...). -/
inductive JsVal where
  | undefv
  | null
  | str (s : String)
  | other
  deriving DecidableEq, Repr

/-- `candidate[name]` - JS property lookup; a missing key reads `undefined`. -/
def jsGet (candidate : List (String × JsVal)) (name : String) : JsVal :=
  match candidate.find? (fun p => p.1 == name) with
  | some p => p.2
  | none => .undefv

/-- The decoded string-rules payload (`rules.type.value` with
`rules.type.case === 'string'`): `min_len` and `in` as extracted by
`getPgvRuleIndex`. -/
structure StringRules where
  minLen : Option Nat := none
  inList : List String := []
  deriving DecidableEq, Repr

/-- One field's PGV rules entry of the rule index
(`index[fqtn][fieldName]`): `rules.message?.required` and the optional
string rules. -/
structure PgvRules where
  messageRequired : Bool := false
  stringRules : Option StringRules := none
  deriving DecidableEq, Repr

/-- `typeof value === 'string' ? value : ''` -/
def jsStrOf (v : JsVal) : String :=
  match v with
  | .str s => s
  | _ => ""

/-- JS truthiness of the required-check disjunct
`value === undefined || value === null || value === ''`. -/
def isRequiredViolation (v : JsVal) : Bool :=
  v == .undefv || v == .null || v == .str ""

/-- The loop body of `applyPgvIndexRules`, written exactly as the source's
for-loop with `violations.push(...)`/`continue`: iterate the type's fields in
declaration order, look the field up in the rule map, and run the checks in
source order (required, then `min_len`, then `in`), accumulating pushed
violations. -/
def applyPgvIndexRulesGo (fieldMap : List (String × PgvRules))
    (candidate : List (String × JsVal)) :
    List String → List String → List String
  | [], violations => violations
  | name :: fields, violations =>
    match (fieldMap.find? (fun p => p.1 == name)).map Prod.snd with
    | none => applyPgvIndexRulesGo fieldMap candidate fields violations
    | some rules =>
      let value := jsGet candidate name
      if rules.messageRequired && isRequiredViolation value then
        applyPgvIndexRulesGo fieldMap candidate fields
          (violations ++ ["field \x27" ++ name ++ "\x27 is required"])
      else
        match rules.stringRules with
        | none => applyPgvIndexRulesGo fieldMap candidate fields violations
        | some sr =>
          let str := jsStrOf value
          match sr.minLen with
          | some m =>
            if str.length < m then
              applyPgvIndexRulesGo fieldMap candidate fields
                (violations ++
                  ["field \x27" ++ name ++ "\x27 must be at least " ++
                    toString m ++ " characters"])
            else
              if !sr.inList.isEmpty && str != "" && !sr.inList.contains str then
                applyPgvIndexRulesGo fieldMap candidate fields
                  (violations ++
                    ["field \x27" ++ name ++ "\x27 must be one of: " ++
                      String.intercalate ", " sr.inList])
              else applyPgvIndexRulesGo fieldMap candidate fields violations
          | none =>
            if !sr.inList.isEmpty && str != "" && !sr.inList.contains str then
              applyPgvIndexRulesGo fieldMap candidate fields
                (violations ++
                  ["field \x27" ++ name ++ "\x27 must be one of: " ++
                    String.intercalate ", " sr.inList])
            else applyPgvIndexRulesGo fieldMap candidate fields violations

/-- `RealMcpClient.applyPgvIndexRules(fqtn, type, candidate, index)`:
`fieldMap` is `index[fqtn] ?? {}` and `fields` is `type.fieldsArray`
restricted to the field names, in declaration order. -/
def applyPgvIndexRules (fieldMap : List (String × PgvRules))
    (fields : List String) (candidate : List (String × JsVal)) : List String :=
  applyPgvIndexRulesGo fieldMap candidate fields []

/-- The specified per-field decision: the first failing rule, checked in the
fixed order required-ness, then minimum length, then enumerated membership,
yields the field's single violation message. -/
def firstFieldViolation (fieldMap : List (String × PgvRules))
    (candidate : List (String × JsVal)) (name : String) : Option String :=
  match (fieldMap.find? (fun p => p.1 == name)).map Prod.snd with
  | none => none
  | some rules =>
    let value := jsGet candidate name
    if rules.messageRequired && isRequiredViolation value then
      some ("field \x27" ++ name ++ "\x27 is required")
    else
      match rules.stringRules with
      | none => none
      | some sr =>
        let str := jsStrOf value
        if sr.minLen.elim false (fun m => decide (str.length < m)) then
          some ("field \x27" ++ name ++ "\x27 must be at least " ++
            toString (sr.minLen.getD 0) ++ " characters")
        else if !sr.inList.isEmpty && str != "" && !sr.inList.contains str then
          some ("field \x27" ++ name ++ "\x27 must be one of: " ++
            String.intercalate ", " sr.inList)
        else none

/-- The weather scenario's rule index for `examples.weather.GetWeatherRequest`:
`location` is required, `units` is constrained to `metric`/`imperial`. -/
def weatherFieldMap : List (String × PgvRules) :=
  [("location", { messageRequired := true }),
   ("units", { stringRules := some { inList := ["metric", "imperial"] } })]

/-! ## Part 2: raw wire-level option scanners (`DescriptorCache`)

Source: `src/unnamed/part_005`, first revision: `readVarint` (lines 345-353),
`skipField` (461-469), `findExtension` (330-343), `readUninterpretedOptions`
(522-539), `decodeUninterpretedOption` (541-566), `decodeNamePart` (568-590).

A `Uint8Array` is a `List Nat` of bytes; `buf[o]` under the `o < buf.length`
guard is `buf.getD o 0`.  JavaScript's 32-bit bitwise semantics
(`x |= (b & 0x7f) << s` with shift count `s % 32` and `x >>> 0` at the end)
are modelled on the unsigned 32-bit bit patterns, which the source's final
`>>> 0` exposes. -/

/-- `buf.subarray(a, b)` - clamped to the buffer bounds, empty when `a ≥ b`. -/
def subarray (buf : List Nat) (a b : Nat) : List Nat :=
  (buf.take b).drop a

/-- The `while` loop of `DescriptorCache.readVarint`: accumulate 7-bit groups
into the 32-bit pattern `x` (the source's local `b` and updated `x` are
inlined; the JS shift count is taken mod 32), advancing `o` one byte per
iteration, stopping on a byte without the continuation bit or at the end of
the buffer. -/
def readVarintGo (buf : List Nat) (x s o : Nat) : Nat × Nat :=
  if o < buf.length then
    if buf.getD o 0 &&& 128 == 0 then
      (x ||| (((buf.getD o 0 &&& 127) <<< (s % 32)) &&& 4294967295), o + 1)
    else
      readVarintGo buf (x ||| (((buf.getD o 0 &&& 127) <<< (s % 32)) &&& 4294967295))
        (s + 7) (o + 1)
  else (x, o)
termination_by buf.length - o
decreasing_by omega

/-- `DescriptorCache.readVarint(buf, off)`: returns `[value, newOffset]`. -/
def readVarint (buf : List Nat) (off : Nat) : Nat × Nat :=
  readVarintGo buf 0 0 off

/-- The scanner's offset never moves backwards. -/
theorem readVarintGo_snd_ge (buf : List Nat) (x s o : Nat) :
    o ≤ (readVarintGo buf x s o).2 := by
  rw [readVarintGo]
  by_cases h : o < buf.length
  · simp only [h, if_true]
    by_cases hb : buf[o]?.getD 0 &&& 128 = 0
    · simp [hb]
    · simp [hb]
      have := readVarintGo_snd_ge buf
        (x ||| (((buf[o]?.getD 0 &&& 127) <<< (s % 32)) &&& 4294967295)) (s + 7) (o + 1)
      omega
  · simp [h]
termination_by buf.length - o
decreasing_by omega

/-- `readVarint` consumes at least one byte whenever the offset is below the
buffer length. -/
theorem readVarintGo_snd_gt (buf : List Nat) (x s o : Nat) (h : o < buf.length) :
    o < (readVarintGo buf x s o).2 := by
  rw [readVarintGo]
  simp only [h, if_true]
  by_cases hb : buf[o]?.getD 0 &&& 128 = 0
  · simp [hb]
  · simp [hb]
    have := readVarintGo_snd_ge buf
      (x ||| (((buf[o]?.getD 0 &&& 127) <<< (s % 32)) &&& 4294967295)) (s + 7) (o + 1)
    omega

/-- `readVarint` never indexes past the end: the returned offset is bounded
by the buffer length (or is the unchanged starting offset when that already
lies beyond the end). -/
theorem readVarintGo_snd_le (buf : List Nat) (x s o : Nat) :
    (readVarintGo buf x s o).2 ≤ max o buf.length := by
  rw [readVarintGo]
  by_cases h : o < buf.length
  · simp only [h, if_true]
    by_cases hb : buf[o]?.getD 0 &&& 128 = 0
    · simp [hb]
      omega
    · simp [hb]
      have := readVarintGo_snd_le buf
        (x ||| (((buf[o]?.getD 0 &&& 127) <<< (s % 32)) &&& 4294967295)) (s + 7) (o + 1)
      omega
  · simp [h]
termination_by buf.length - o
decreasing_by omega

theorem readVarint_snd_ge (buf : List Nat) (off : Nat) :
    off ≤ (readVarint buf off).2 :=
  readVarintGo_snd_ge buf 0 0 off

theorem readVarint_snd_gt (buf : List Nat) (off : Nat) (h : off < buf.length) :
    off < (readVarint buf off).2 :=
  readVarintGo_snd_gt buf 0 0 off h

theorem readVarint_snd_le (buf : List Nat) (off : Nat) :
    (readVarint buf off).2 ≤ max off buf.length :=
  readVarintGo_snd_le buf 0 0 off

/-- `DescriptorCache.skipField(buf, off, wt)`: advance past one field's
payload according to its wire type; unknown wire types leave the offset
unchanged. -/
def skipField (buf : List Nat) (off : Nat) (wt : Nat) : Nat :=
  match wt with
  | 0 => (readVarint buf off).2
  | 1 => off + 8
  | 2 => (readVarint buf off).2 + (readVarint buf off).1
  | 5 => off + 4
  | _ => off

/-- `skipField` never decreases the offset. -/
theorem skipField_ge (buf : List Nat) (off : Nat) (wt : Nat) :
    off ≤ skipField buf off wt := by
  unfold skipField
  have h0 := readVarint_snd_ge buf off
  split <;> omega

/-- The scanner loop of `DescriptorCache.findExtension`: read a tag, return
the length-delimited payload when the sought field number appears with wire
type 2, otherwise skip the field and continue. -/
def findExtensionGo (buf : List Nat) (fieldNo : Nat) (off : Nat) :
    Option (List Nat) :=
  if _h : off < buf.length then
    let p := readVarint buf off
    let fn := p.1 >>> 3
    let wt := p.1 &&& 7
    if fn == fieldNo && wt == 2 then
      let q := readVarint buf p.2
      some (subarray buf q.2 (q.2 + q.1))
    else findExtensionGo buf fieldNo (skipField buf p.2 wt)
  else none
termination_by buf.length - off
decreasing_by
  have h1 := readVarint_snd_gt buf off _h
  have h2 := skipField_ge buf (readVarint buf off).2 ((readVarint buf off).1 &&& 7)
  omega

/-- `DescriptorCache.findExtension(buf, fieldNo)`. -/
def findExtension (buf : List Nat) (fieldNo : Nat) : Option (List Nat) :=
  findExtensionGo buf fieldNo 0

/-- A UTF-8 continuation byte. -/
def isContByte (b : Nat) : Bool := 128 ≤ b && b < 192

/- Modelled from the spec: `new TextDecoder().decode(bytes)` is a JS
built-in, not repository code; modelled as standard UTF-8 decoding with
U+FFFD replacement on malformed bytes (replacement details for exotic
malformed sequences are simplified; no theorem depends on them).  The
continuation of each multi-byte lead is handled by its own helper so that
each shape has a clean unfolding equation. -/
mutual

/-- UTF-8 decoding of a byte list, one scalar per sequence. -/
def utf8DecodeChars : List Nat → List Char
  | [] => []
  | b :: rest =>
    if b < 128 then Char.ofNat b :: utf8DecodeChars rest
    else if b < 192 then Char.ofNat 65533 :: utf8DecodeChars rest
    else if b < 224 then utf8DecodeCont2 b rest
    else if b < 240 then utf8DecodeCont3 b rest
    else utf8DecodeCont4 b rest
termination_by l => (l.length, 0)

/-- Continuation of a two-byte UTF-8 sequence. -/
def utf8DecodeCont2 (b : Nat) : List Nat → List Char
  | c1 :: rest1 =>
    if isContByte c1 then
      Char.ofNat ((b - 192) * 64 + (c1 - 128)) :: utf8DecodeChars rest1
    else Char.ofNat 65533 :: utf8DecodeChars (c1 :: rest1)
  | [] => [Char.ofNat 65533]
termination_by l => (l.length, 1)

/-- Continuation of a three-byte UTF-8 sequence. -/
def utf8DecodeCont3 (b : Nat) : List Nat → List Char
  | c1 :: c2 :: rest2 =>
    if isContByte c1 && isContByte c2 then
      Char.ofNat ((b - 224) * 4096 + (c1 - 128) * 64 + (c2 - 128))
        :: utf8DecodeChars rest2
    else Char.ofNat 65533 :: utf8DecodeChars (c1 :: c2 :: rest2)
  | _ => [Char.ofNat 65533]
termination_by l => (l.length, 1)

/-- Continuation of a four-byte UTF-8 sequence. -/
def utf8DecodeCont4 (b : Nat) : List Nat → List Char
  | c1 :: c2 :: c3 :: rest3 =>
    if isContByte c1 && isContByte c2 && isContByte c3 then
      Char.ofNat
          ((b - 240) * 262144 + (c1 - 128) * 4096 + (c2 - 128) * 64 + (c3 - 128))
        :: utf8DecodeChars rest3
    else Char.ofNat 65533 :: utf8DecodeChars (c1 :: c2 :: c3 :: rest3)
  | _ => [Char.ofNat 65533]
termination_by l => (l.length, 1)

end

/-- `new TextDecoder().decode(bytes)` as a Lean `String`. -/
def utf8Decode (bs : List Nat) : String :=
  String.mk (utf8DecodeChars bs)

/-- One decoded `UninterpretedOption`: the dotted name path (parenthesised
for extension parts) and the optional aggregate textual value. -/
structure UninterpretedOption where
  path : List String
  aggregate : Option String := none
  deriving DecidableEq, Repr

/-- The scanner loop of `DescriptorCache.decodeNamePart`: collect the
`name_part` string (field 1) and the `is_extension` flag (field 2, varint,
low bit). -/
def decodeNamePartGo (buf : List Nat) (off : Nat) (name : String) (isExt : Bool) :
    String × Bool :=
  if _h : off < buf.length then
    if (readVarint buf off).1 >>> 3 == 1 && (readVarint buf off).1 &&& 7 == 2 then
      decodeNamePartGo buf
        ((readVarint buf (readVarint buf off).2).2 + (readVarint buf (readVarint buf off).2).1)
        (utf8Decode (subarray buf (readVarint buf (readVarint buf off).2).2
          ((readVarint buf (readVarint buf off).2).2 + (readVarint buf (readVarint buf off).2).1)))
        isExt
    else if (readVarint buf off).1 >>> 3 == 2 && (readVarint buf off).1 &&& 7 == 0 then
      decodeNamePartGo buf (readVarint buf (readVarint buf off).2).2 name
        ((readVarint buf (readVarint buf off).2).1 &&& 1 == 1)
    else
      decodeNamePartGo buf (skipField buf (readVarint buf off).2 ((readVarint buf off).1 &&& 7))
        name isExt
  else (name, isExt)
termination_by buf.length - off
decreasing_by
  · have h1 := readVarint_snd_gt buf off _h
    have h2 := readVarint_snd_ge buf (readVarint buf off).2
    omega
  · have h1 := readVarint_snd_gt buf off _h
    have h2 := readVarint_snd_ge buf (readVarint buf off).2
    omega
  · have h1 := readVarint_snd_gt buf off _h
    have h2 := skipField_ge buf (readVarint buf off).2 ((readVarint buf off).1 &&& 7)
    omega

/-- `DescriptorCache.decodeNamePart(buf)`: extension parts are parenthesised. -/
def decodeNamePart (buf : List Nat) : String :=
  match decodeNamePartGo buf 0 "" false with
  | (name, isExt) => if isExt then "(" ++ name ++ ")" else name

/-- The scanner loop of `DescriptorCache.decodeUninterpretedOption`: collect
the `name` parts (field 2) into the dotted path and the `aggregate_value`
text (field 8). -/
def decodeUninterpretedOptionGo (buf : List Nat) (off : Nat) (path : List String)
    (aggregate : Option String) : List String × Option String :=
  if _h : off < buf.length then
    if (readVarint buf off).1 >>> 3 == 2 && (readVarint buf off).1 &&& 7 == 2 then
      decodeUninterpretedOptionGo buf
        ((readVarint buf (readVarint buf off).2).2 + (readVarint buf (readVarint buf off).2).1)
        (path ++ [decodeNamePart (subarray buf (readVarint buf (readVarint buf off).2).2
          ((readVarint buf (readVarint buf off).2).2 + (readVarint buf (readVarint buf off).2).1))])
        aggregate
    else if (readVarint buf off).1 >>> 3 == 8 && (readVarint buf off).1 &&& 7 == 2 then
      decodeUninterpretedOptionGo buf
        ((readVarint buf (readVarint buf off).2).2 + (readVarint buf (readVarint buf off).2).1)
        path
        (some (utf8Decode (subarray buf (readVarint buf (readVarint buf off).2).2
          ((readVarint buf (readVarint buf off).2).2 + (readVarint buf (readVarint buf off).2).1))))
    else
      decodeUninterpretedOptionGo buf
        (skipField buf (readVarint buf off).2 ((readVarint buf off).1 &&& 7)) path aggregate
  else (path, aggregate)
termination_by buf.length - off
decreasing_by
  · have h1 := readVarint_snd_gt buf off _h
    have h2 := readVarint_snd_ge buf (readVarint buf off).2
    omega
  · have h1 := readVarint_snd_gt buf off _h
    have h2 := readVarint_snd_ge buf (readVarint buf off).2
    omega
  · have h1 := readVarint_snd_gt buf off _h
    have h2 := skipField_ge buf (readVarint buf off).2 ((readVarint buf off).1 &&& 7)
    omega

/-- `DescriptorCache.decodeUninterpretedOption(buf)`. -/
def decodeUninterpretedOption (buf : List Nat) : UninterpretedOption :=
  match decodeUninterpretedOptionGo buf 0 [] none with
  | (path, aggregate) => { path := path, aggregate := aggregate }

/-- The scanner loop of `DescriptorCache.readUninterpretedOptions`: collect
every `uninterpreted_option` entry (field 999, wire type 2) of a serialized
`FieldOptions` message. -/
def readUninterpretedOptionsGo (buf : List Nat) (off : Nat)
    (out : List UninterpretedOption) : List UninterpretedOption :=
  if _h : off < buf.length then
    if (readVarint buf off).1 >>> 3 == 999 && (readVarint buf off).1 &&& 7 == 2 then
      readUninterpretedOptionsGo buf
        ((readVarint buf (readVarint buf off).2).2 + (readVarint buf (readVarint buf off).2).1)
        (out ++ [decodeUninterpretedOption (subarray buf (readVarint buf (readVarint buf off).2).2
          ((readVarint buf (readVarint buf off).2).2 + (readVarint buf (readVarint buf off).2).1))])
    else
      readUninterpretedOptionsGo buf
        (skipField buf (readVarint buf off).2 ((readVarint buf off).1 &&& 7)) out
  else out
termination_by buf.length - off
decreasing_by
  · have h1 := readVarint_snd_gt buf off _h
    have h2 := readVarint_snd_ge buf (readVarint buf off).2
    omega
  · have h1 := readVarint_snd_gt buf off _h
    have h2 := skipField_ge buf (readVarint buf off).2 ((readVarint buf off).1 &&& 7)
    omega

/-- `DescriptorCache.readUninterpretedOptions(optionsBytes)`. -/
def readUninterpretedOptions (buf : List Nat) : List UninterpretedOption :=
  readUninterpretedOptionsGo buf 0 []


/-! ## Part 3: one reflection batch call

Source: `src/unnamed/part_005`, second revision `fetchBatch` (lines
1022-1073) and first revision `fetchFileDescriptors` (183-231), whose event
handlers are identical: the `data` handler collects `(name, bytes)` pairs
from `file_descriptor_response` blobs, deduplicated by first-seen name;
`error_response` messages match no handler branch and are ignored; the
`error` event rejects the promise; the `end` event resolves it with the
collected map; the safety timeout also resolves it with the collected map.

The promise is modelled as a fold over the arrival-ordered event list (first
settling event wins).  `FileDescriptorProto.deserializeBinary` plus
`getName()` is a library boundary: each blob is modelled as `none`
(deserialization throws - ignored) or `some (name, payload)` with the
payload an opaque token for the raw bytes. -/

/-- One observable event of a `ServerReflectionInfo` stream. -/
inductive StreamEvent where
  | data (blobs : List (Option (String × Nat)))
  | errorResponse
  | streamError
  | streamEnd
  deriving DecidableEq, Repr

/-- The `data` handler body: append each blob that deserializes, has a
non-empty name, and whose name was not seen before (the source's `seen` set
always holds exactly the collected names). -/
def addBlobs (out : List (String × Nat)) (blobs : List (Option (String × Nat))) :
    List (String × Nat) :=
  blobs.foldl
    (fun acc blob =>
      match blob with
      | some (name, payload) =>
        if name != "" && !(acc.map Prod.fst).contains name then acc ++ [(name, payload)]
        else acc
      | none => acc)
    out

/-- Events that settle neither branch of the promise: descriptor data and the
ignored `error_response` messages. -/
def nonSettling : StreamEvent → Bool
  | .data _ => true
  | .errorResponse => true
  | .streamError => false
  | .streamEnd => false

/-- The batch promise as a fold over the event list: `end` resolves with the
collected descriptors, a transport `error` rejects, everything else only
updates the collection; an exhausted event list is the safety-timeout path,
which also resolves with the collected descriptors. -/
def runBatchGo (out : List (String × Nat)) :
    List StreamEvent → Except Unit (List (String × Nat))
  | [] => .ok out
  | .data blobs :: rest => runBatchGo (addBlobs out blobs) rest
  | .errorResponse :: rest => runBatchGo out rest
  | .streamError :: _ => .error ()
  | .streamEnd :: _ => .ok out

/-- `fetchBatch(reqs)` observed through its event stream. -/
def runBatch (events : List StreamEvent) : Except Unit (List (String × Nat)) :=
  runBatchGo [] events

/-- The descriptors collected by the data handler across an event list. -/
def collectDescriptorsGo (out : List (String × Nat)) :
    List StreamEvent → List (String × Nat)
  | [] => out
  | .data blobs :: rest => collectDescriptorsGo (addBlobs out blobs) rest
  | _ :: rest => collectDescriptorsGo out rest

/-- Descriptors collected from the whole event list. -/
def collectDescriptors (events : List StreamEvent) : List (String × Nat) :=
  collectDescriptorsGo [] events


/-! ## Part 4: dependency-closure fetch (`fetchFileDescriptors`)

Source: `src/unnamed/part_005`, second revision, lines 1017-1120.  The
reflection server is a parameter mapping each `file_containing_symbol` /
`file_by_filename` request to the descriptor blobs it streams back; the
library boundary `FileDescriptorProto.deserializeBinary` + `getName` +
`getDependencyList` makes each blob a `ReflFile` (its name and dependency
list - the only parts the loop reads).  `fetchBatch` collects responses in
request order, deduplicated by first-seen name, skipping empty names
(falsy-`name` check) and empty request strings (falsy `r.symbol` /
`r.filename` checks). -/

/-- A deserialized `FileDescriptorProto` as seen by the closure loop: its
name and dependency list, plus the raw serialized bytes the stream carried
(consumed only by the raw PGV fallback parser). -/
structure ReflFile where
  name : String
  deps : List String
  raw : List Nat := []
  deriving DecidableEq, Repr

/-- The reflection server: blobs streamed for each kind of request. -/
structure ReflServer where
  bySymbol : String → List ReflFile
  byFilename : String → List ReflFile

/-- Names of the collected files (the `Map` keys, in insertion order). -/
def fileNames (l : List ReflFile) : List String :=
  l.map ReflFile.name

/-- `Array.from(new Set(xs))` - dedup keeping first occurrences. -/
def firstDedup (xs : List String) : List String :=
  xs.foldl (fun acc x => if acc.contains x then acc else acc ++ [x]) []

/-- The `data`-handler collection of one batch: responses in request order,
deduplicated by first-seen name, empty names dropped. -/
def batchCollect (responses : List ReflFile) : List ReflFile :=
  responses.foldl
    (fun out f =>
      if f.name != "" && !(fileNames out).contains f.name then out ++ [f] else out)
    []

/-- One batch of `file_containing_symbol` requests (empty symbols are falsy
and never written). -/
def fetchSymbolsBatch (srv : ReflServer) (syms : List String) : List ReflFile :=
  batchCollect (((syms.filter (fun s => s ≠ "")).map srv.bySymbol).flatten)

/-- One batch of `file_by_filename` requests (empty filenames are falsy and
never written). -/
def fetchFilenamesBatch (srv : ReflServer) (files : List String) : List ReflFile :=
  batchCollect (((files.filter (fun s => s ≠ "")).map srv.byFilename).flatten)

/-- `for (const dep of getDeps(bytes)) if (!all.has(dep)) pending.add(dep)`:
append each dependency that is neither an already-fetched file nor already
pending. -/
def addPendingDeps (all : List ReflFile) (pending : List String)
    (deps : List String) : List String :=
  deps.foldl
    (fun p d => if (fileNames all).contains d || p.contains d then p else p ++ [d])
    pending

/-- The body of `for (const [name, bytes] of depBatch)`: a response whose
name is new is appended to `all` and its unseen dependencies become
pending. -/
def integrateStep (acc : List ReflFile × List String) (f : ReflFile) :
    List ReflFile × List String :=
  if (fileNames acc.1).contains f.name then acc
  else (acc.1 ++ [f], addPendingDeps (acc.1 ++ [f]) acc.2 f.deps)

/-- Folding one whole `depBatch` into the `(all, pending)` state. -/
def integrateBatch (all : List ReflFile) (pending : List String)
    (batch : List ReflFile) : List ReflFile × List String :=
  batch.foldl integrateStep (all, pending)

/-- The seeding of `pending` from the symbol-batch files (the loop preceding
`while (pending.size > 0)`). -/
def initPending (all : List ReflFile) : List String :=
  all.foldl (fun p f => addPendingDeps all p f.deps) []

/-- The `while (pending.size > 0)` loop: drain `pending` into one
`file_by_filename` batch, integrate the responses, repeat.  The loop has no
round bound in the source; `fuel` makes the model total, returning `none`
when the rounds exceed it (the source would instead keep issuing batches). -/
def closureLoop (srv : ReflServer) :
    Nat → List ReflFile → List String → Option (List ReflFile)
  | 0, all, pending => if pending.isEmpty then some all else none
  | fuel + 1, all, pending =>
    if pending.isEmpty then some all
    else
      match integrateBatch all [] (fetchFilenamesBatch srv pending) with
      | (all2, pending2) => closureLoop srv fuel all2 pending2

/-- Step 1 of `fetchFileDescriptors`: the deduplicated symbol batch (empty
when no non-empty symbol was requested). -/
def rootFiles (srv : ReflServer) (symbols : List String) : List ReflFile :=
  if (firstDedup (symbols.filter (fun s => s ≠ ""))).isEmpty then []
  else fetchSymbolsBatch srv (firstDedup (symbols.filter (fun s => s ≠ "")))

/-- `DescriptorCache.fetchFileDescriptors(address, symbols)`: symbol batch,
then the dependency-closure loop. -/
def fetchFileDescriptors (srv : ReflServer) (fuel : Nat) (symbols : List String) :
    Option (List ReflFile) :=
  closureLoop srv fuel (rootFiles srv symbols) (initPending (rootFiles srv symbols))

/-- The server answers filename `n` with a descriptor actually named `n`
(an empty name is falsy and can never be requested or collected). -/
def serverReturns (srv : ReflServer) (n : String) : Prop :=
  n ≠ "" ∧ ∃ f ∈ srv.byFilename n, f.name = n


/-! ## Part 5: PGV rule extraction (`readPgvFromOptionsBytes` and friends)

Source: `src/unnamed/part_005`, first revision, lines 471-520 (the two-tier
rule decoding), 296-328 (structured message walk), 356-459 (raw fallback
parsers).  Tier 1 decodes the resolved extension field 1071 with the
generated `FieldRulesSchema` (library `fromBinary`, a boundary passed in as
`dec`); tier 2 scans `uninterpreted_option` entries and extracts rules from
their aggregate text with JS regexes, embedded below as explicit scanners
(`\s` is modelled by `Char.isWhitespace`, matching it on the ASCII
whitespace actually occurring in aggregate option text). -/

/-- Case-insensitive literal prefix match returning the remainder. -/
def icStartsWith : List Char → List Char → Option (List Char)
  | [], cs => some cs
  | _ :: _, [] => none
  | p :: ps, c :: cs => if p.toLower = c.toLower then icStartsWith ps cs else none

/-- `\s*` - skip whitespace. -/
def dropWs (cs : List Char) : List Char :=
  cs.dropWhile (fun c => c.isWhitespace)

/-- Does `/required\s*:\s*true/i` match at this position? -/
def reqTrueHere (cs : List Char) : Bool :=
  match icStartsWith "required".data cs with
  | some r =>
    match dropWs r with
    | ':' :: r2 => (icStartsWith "true".data (dropWs r2)).isSome
    | _ => false
  | none => false

/-- Does the predicate hold at some position of the text (regex search)? -/
def anySuffix (p : List Char → Bool) : List Char → Bool
  | [] => p []
  | c :: cs => p (c :: cs) || anySuffix p (cs)

/-- `/required\s*:\s*true/i.test(txt)` -/
def matchRequiredTrue (txt : String) : Bool :=
  anySuffix reqTrueHere txt.data

/-- The leftmost successful application of a positional matcher
(regex `String.match` semantics). -/
def firstSomePos (f : List Char → Option α) : List Char → Option α
  | [] => f []
  | c :: cs =>
    match f (c :: cs) with
    | some v => some v
    | none => firstSomePos f cs

/-- `Number(<digits>)` for the captured `\d+`. -/
def digitsToNat (ds : List Char) : Nat :=
  ds.foldl (fun n c => n * 10 + (c.toNat - 48)) 0

/-- Does `/min_len\s*:\s*(\d+)/i` match at this position?  Returns the
captured number. -/
def minLenHere (cs : List Char) : Option Nat :=
  match icStartsWith "min_len".data cs with
  | some r =>
    match dropWs r with
    | ':' :: r2 =>
      match (dropWs r2).takeWhile Char.isDigit with
      | [] => none
      | ds => some (digitsToNat ds)
    | _ => none
  | none => none

/-- `txt.match(/min_len\s*:\s*(\d+)/i)` - the leftmost match's number. -/
def matchMinLen (txt : String) : Option Nat :=
  firstSomePos minLenHere txt.data

/-- Does `/in\s*:\s*\[(.*?)\]/i` match at this position?  The lazy capture
stops at the first `]`; `.` cannot cross a line break. -/
def inListHere (cs : List Char) : Option (List Char) :=
  match icStartsWith "in".data cs with
  | some r =>
    match dropWs r with
    | ':' :: r2 =>
      match dropWs r2 with
      | '[' :: r3 =>
        match r3.drop ((r3.takeWhile (fun c => c ≠ ']' ∧ c ≠ '\n' ∧ c ≠ '\r')).length) with
        | ']' :: _ => some (r3.takeWhile (fun c => c ≠ ']' ∧ c ≠ '\n' ∧ c ≠ '\r'))
        | _ => none
      | _ => none
    | _ => none
  | none => none

/-- `txt.match(/in\s*:\s*\[(.*?)\]/i)` - the leftmost captured segment. -/
def matchInSegment (txt : String) : Option (List Char) :=
  firstSomePos inListHere txt.data

/-- `split(/,(?=(?:[^"]*"[^"]*")*[^"]*$)/)`: split at commas followed by an
even number of quote characters (commas inside quoted items survive). -/
def splitCommasQGo (cur : List Char) : List Char → List (List Char)
  | [] => [cur.reverse]
  | c :: rest =>
    if c = ',' ∧ (rest.countP (fun x => x = '"')) % 2 = 0 then
      cur.reverse :: splitCommasQGo [] rest
    else splitCommasQGo (c :: cur) rest

/-- `s.trim()` on a character list. -/
def trimChars (cs : List Char) : List Char :=
  ((cs.dropWhile (fun c => c.isWhitespace)).reverse.dropWhile
    (fun c => c.isWhitespace)).reverse

/-- `s.replace(/^"|"$/g, '')` - strip one leading and one trailing quote. -/
def stripQuotes (cs : List Char) : List Char :=
  let cs1 := match cs with
    | '"' :: rest => rest
    | other => other
  match cs1.reverse with
  | '"' :: rest => rest.reverse
  | _ => cs1

/-- The item pipeline of the `in` fallback: split, trim, unquote, drop
empties. -/
def parseInItems (seg : List Char) : List String :=
  ((((splitCommasQGo [] seg).map trimChars).map stripQuotes).map
    (fun cs => String.mk cs)).filter (fun s => s ≠ "")

/-- One `uninterpreted_option` entry against the fallback patterns: a
`(validate.rules).message` path yields required-ness when the aggregate text
says `required: true`; a `(validate.rules).string` path always yields string
rules (possibly empty) with `min_len` and `in` scraped from the text. -/
def pgvFallbackOne (u : UninterpretedOption) : Option PgvRules :=
  match u.path with
  | p0 :: p1 :: _ =>
    if p0 = "(validate.rules)" then
      if p1 = "message" then
        if matchRequiredTrue (u.aggregate.getD "") then
          some { messageRequired := true }
        else none
      else if p1 = "string" then
        let sr : StringRules :=
          { minLen := matchMinLen (u.aggregate.getD ""),
            inList :=
              match matchInSegment (u.aggregate.getD "") with
              | some seg => parseInItems seg
              | none => [] }
        some { stringRules := some sr }
      else none
    else none
  | _ => none

/-- Tier 2 of `readPgvFromOptionsBytes`: the first `uninterpreted_option`
that matches a fallback pattern. -/
def pgvFallback (buf : List Nat) : Option PgvRules :=
  (readUninterpretedOptions buf).findSome? pgvFallbackOne

/-- `DescriptorCache.readPgvFromOptionsBytes(buf)`: try the resolved
extension field 1071 first (`dec` is the library `fromBinary` of the
generated `FieldRulesSchema`, with its bigint-to-number massage), fall back
to the `uninterpreted_option` scan. -/
def readPgvFromOptionsBytes (dec : List Nat → Option PgvRules)
    (buf : List Nat) : Option PgvRules :=
  match findExtension buf 1071 with
  | some ext =>
    match dec ext with
    | some obj => some obj
    | none => pgvFallback buf
  | none => pgvFallback buf


/-- A field of a deserialized `FieldDescriptorProto` as the extraction reads
it: its name, JSON name, and serialized `FieldOptions` bytes
(`getOptions()?.serializeBinary()`; `none` when options are absent). -/
structure FieldDesc where
  name : String := ""
  jsonName : String := ""
  optionsBytes : Option (List Nat) := none

/-- A deserialized `DescriptorProto`: name, fields, nested messages. -/
inductive MsgDesc where
  | node (name : String) (fields : List FieldDesc) (nested : List MsgDesc)

/-- `msg.getName()` -/
def MsgDesc.name : MsgDesc → String
  | .node n _ _ => n

/-- `msg.getFieldList()` -/
def MsgDesc.fields : MsgDesc → List FieldDesc
  | .node _ f _ => f

/-- `msg.getNestedTypeList()` -/
def MsgDesc.nested : MsgDesc → List MsgDesc
  | .node _ _ n => n

/-- A deserialized `FileDescriptorProto` as the PGV extraction reads it. -/
structure FdpStruct where
  package : String := ""
  messages : List MsgDesc := []

/-- `DescriptorCache.readPgvRulesFromFieldOptions(field)`: no options means
no rules; otherwise decode the serialized options bytes. -/
def readPgvRulesFromFieldOptions (dec : List Nat → Option PgvRules)
    (f : FieldDesc) : Option PgvRules :=
  match f.optionsBytes with
  | none => none
  | some buf => readPgvFromOptionsBytes dec buf

/-- The fully qualified type name of a (possibly nested) message:
`(pkg ? pkg + "." : "") + [...parents, name].filter(Boolean).join(".")`. -/
def pgvFqtn (pkg : String) (parents : List String) (name : String) : String :=
  (if pkg ≠ "" then pkg ++ "." else "")
    ++ String.intercalate "." ((parents ++ [name]).filter (fun s => s ≠ ""))

/-- `f.getJsonName() || f.getName()` -/
def fieldKey (jsonName name : String) : String :=
  if jsonName ≠ "" then jsonName else name

/-- `DescriptorCache.extractPgvFromMessage(pkg, msg, index, parents)`: the
rule-index additions contributed by one message and its nested messages, in
source order (the source counts them as `added`). -/
def extractPgvFromMessage (dec : List Nat → Option PgvRules) (pkg : String) :
    MsgDesc → List String → List ((String × String) × PgvRules)
  | .node name fields nested, parents =>
    (fields.filterMap (fun f =>
      (readPgvRulesFromFieldOptions dec f).map
        (fun r => ((pgvFqtn pkg parents name, fieldKey f.jsonName f.name), r))))
    ++ (nested.attach.map (fun n =>
          extractPgvFromMessage dec pkg n.1 (parents ++ [name]))).flatten
termination_by m _ => sizeOf m
decreasing_by
  have := List.sizeOf_lt_of_mem n.2
  simp only [MsgDesc.node.sizeOf_spec]
  omega

/-- The scanner loop of `extractPgvFromRawFile`: collect the `package`
(field 2, last write wins) and the `message_type` bodies (field 4). -/
def rawFileScanGo (buf : List Nat) (off : Nat) (pkg : String)
    (bodies : List (List Nat)) : String × List (List Nat) :=
  if _h : off < buf.length then
    if (readVarint buf off).1 >>> 3 == 2 && (readVarint buf off).1 &&& 7 == 2 then
      rawFileScanGo buf
        ((readVarint buf (readVarint buf off).2).2 + (readVarint buf (readVarint buf off).2).1)
        (utf8Decode (subarray buf (readVarint buf (readVarint buf off).2).2
          ((readVarint buf (readVarint buf off).2).2 + (readVarint buf (readVarint buf off).2).1)))
        bodies
    else if (readVarint buf off).1 >>> 3 == 4 && (readVarint buf off).1 &&& 7 == 2 then
      rawFileScanGo buf
        ((readVarint buf (readVarint buf off).2).2 + (readVarint buf (readVarint buf off).2).1)
        pkg
        (bodies ++ [subarray buf (readVarint buf (readVarint buf off).2).2
          ((readVarint buf (readVarint buf off).2).2 + (readVarint buf (readVarint buf off).2).1)])
    else
      rawFileScanGo buf (skipField buf (readVarint buf off).2 ((readVarint buf off).1 &&& 7))
        pkg bodies
  else (pkg, bodies)
termination_by buf.length - off
decreasing_by
  · have h1 := readVarint_snd_gt buf off _h
    have h2 := readVarint_snd_ge buf (readVarint buf off).2
    omega
  · have h1 := readVarint_snd_gt buf off _h
    have h2 := readVarint_snd_ge buf (readVarint buf off).2
    omega
  · have h1 := readVarint_snd_gt buf off _h
    have h2 := skipField_ge buf (readVarint buf off).2 ((readVarint buf off).1 &&& 7)
    omega

/-- The scanner loop of `extractPgvFromRawMessage`: collect the message
`name` (field 1), `field` bodies (field 2) and `nested_type` bodies
(field 3). -/
def rawMsgScanGo (buf : List Nat) (off : Nat) (name : String)
    (fields : List (List Nat)) (nested : List (List Nat)) :
    String × List (List Nat) × List (List Nat) :=
  if _h : off < buf.length then
    if (readVarint buf off).1 >>> 3 == 1 && (readVarint buf off).1 &&& 7 == 2 then
      rawMsgScanGo buf
        ((readVarint buf (readVarint buf off).2).2 + (readVarint buf (readVarint buf off).2).1)
        (utf8Decode (subarray buf (readVarint buf (readVarint buf off).2).2
          ((readVarint buf (readVarint buf off).2).2 + (readVarint buf (readVarint buf off).2).1)))
        fields nested
    else if (readVarint buf off).1 >>> 3 == 2 && (readVarint buf off).1 &&& 7 == 2 then
      rawMsgScanGo buf
        ((readVarint buf (readVarint buf off).2).2 + (readVarint buf (readVarint buf off).2).1)
        name
        (fields ++ [subarray buf (readVarint buf (readVarint buf off).2).2
          ((readVarint buf (readVarint buf off).2).2 + (readVarint buf (readVarint buf off).2).1)])
        nested
    else if (readVarint buf off).1 >>> 3 == 3 && (readVarint buf off).1 &&& 7 == 2 then
      rawMsgScanGo buf
        ((readVarint buf (readVarint buf off).2).2 + (readVarint buf (readVarint buf off).2).1)
        name fields
        (nested ++ [subarray buf (readVarint buf (readVarint buf off).2).2
          ((readVarint buf (readVarint buf off).2).2 + (readVarint buf (readVarint buf off).2).1)])
    else
      rawMsgScanGo buf (skipField buf (readVarint buf off).2 ((readVarint buf off).1 &&& 7))
        name fields nested
  else (name, fields, nested)
termination_by buf.length - off
decreasing_by
  · have h1 := readVarint_snd_gt buf off _h
    have h2 := readVarint_snd_ge buf (readVarint buf off).2
    omega
  · have h1 := readVarint_snd_gt buf off _h
    have h2 := readVarint_snd_ge buf (readVarint buf off).2
    omega
  · have h1 := readVarint_snd_gt buf off _h
    have h2 := readVarint_snd_ge buf (readVarint buf off).2
    omega
  · have h1 := readVarint_snd_gt buf off _h
    have h2 := skipField_ge buf (readVarint buf off).2 ((readVarint buf off).1 &&& 7)
    omega

/-- The scanner loop of `extractPgvFromRawField`: collect `name` (field 1),
`json_name` (field 10) and the `options` bytes (field 8). -/
def rawFieldScanGo (buf : List Nat) (off : Nat) (name jsonName : String)
    (optionsBytes : Option (List Nat)) : String × String × Option (List Nat) :=
  if _h : off < buf.length then
    if (readVarint buf off).1 >>> 3 == 1 && (readVarint buf off).1 &&& 7 == 2 then
      rawFieldScanGo buf
        ((readVarint buf (readVarint buf off).2).2 + (readVarint buf (readVarint buf off).2).1)
        (utf8Decode (subarray buf (readVarint buf (readVarint buf off).2).2
          ((readVarint buf (readVarint buf off).2).2 + (readVarint buf (readVarint buf off).2).1)))
        jsonName optionsBytes
    else if (readVarint buf off).1 >>> 3 == 10 && (readVarint buf off).1 &&& 7 == 2 then
      rawFieldScanGo buf
        ((readVarint buf (readVarint buf off).2).2 + (readVarint buf (readVarint buf off).2).1)
        name
        (utf8Decode (subarray buf (readVarint buf (readVarint buf off).2).2
          ((readVarint buf (readVarint buf off).2).2 + (readVarint buf (readVarint buf off).2).1)))
        optionsBytes
    else if (readVarint buf off).1 >>> 3 == 8 && (readVarint buf off).1 &&& 7 == 2 then
      rawFieldScanGo buf
        ((readVarint buf (readVarint buf off).2).2 + (readVarint buf (readVarint buf off).2).1)
        name jsonName
        (some (subarray buf (readVarint buf (readVarint buf off).2).2
          ((readVarint buf (readVarint buf off).2).2 + (readVarint buf (readVarint buf off).2).1)))
    else
      rawFieldScanGo buf (skipField buf (readVarint buf off).2 ((readVarint buf off).1 &&& 7))
        name jsonName optionsBytes
  else (name, jsonName, optionsBytes)
termination_by buf.length - off
decreasing_by
  · have h1 := readVarint_snd_gt buf off _h
    have h2 := readVarint_snd_ge buf (readVarint buf off).2
    omega
  · have h1 := readVarint_snd_gt buf off _h
    have h2 := readVarint_snd_ge buf (readVarint buf off).2
    omega
  · have h1 := readVarint_snd_gt buf off _h
    have h2 := readVarint_snd_ge buf (readVarint buf off).2
    omega
  · have h1 := readVarint_snd_gt buf off _h
    have h2 := skipField_ge buf (readVarint buf off).2 ((readVarint buf off).1 &&& 7)
    omega

/-- Nested message bodies collected by `rawMsgScanGo` are strict sub-spans:
each is cut at an offset past at least the enclosing tag byte, so its length
is strictly below the enclosing body's. -/
theorem rawMsgScanGo_nested_lt (buf : List Nat) (off : Nat) (name : String)
    (fields nested : List (List Nat))
    (hacc : ∀ n ∈ nested, n.length < buf.length) :
    ∀ n ∈ (rawMsgScanGo buf off name fields nested).2.2, n.length < buf.length := by
  rw [rawMsgScanGo]
  by_cases h : off < buf.length
  · simp only [h, reduceDIte]
    split
    · exact rawMsgScanGo_nested_lt buf _ _ _ _ hacc
    · split
      · exact rawMsgScanGo_nested_lt buf _ _ _ _ hacc
      · split
        · apply rawMsgScanGo_nested_lt
          intro n hn
          rcases List.mem_append.mp hn with hn | hn
          · exact hacc n hn
          · have hn2 : n = subarray buf (readVarint buf (readVarint buf off).2).2
                ((readVarint buf (readVarint buf off).2).2
                  + (readVarint buf (readVarint buf off).2).1) := by
              simpa using hn
            have h1 := readVarint_snd_gt buf off h
            have h2 := readVarint_snd_ge buf (readVarint buf off).2
            subst hn2
            simp only [subarray, List.length_drop, List.length_take]
            omega
        · exact rawMsgScanGo_nested_lt buf _ _ _ _ hacc
  · simp only [h, reduceDIte]
    exact hacc
termination_by buf.length - off
decreasing_by
  all_goals
    have h1 := readVarint_snd_gt buf off h
    have h2 := readVarint_snd_ge buf (readVarint buf off).2
    have h3 := skipField_ge buf (readVarint buf off).2 ((readVarint buf off).1 &&& 7)
    omega

/-- `DescriptorCache.extractPgvFromRawField(fqtn, body, index)`: the rule
entry contributed by one raw field body, keyed by `jsonName || name`. -/
def extractPgvFromRawField (dec : List Nat → Option PgvRules) (body : List Nat) :
    Option (String × PgvRules) :=
  match rawFieldScanGo body 0 "" "" none with
  | (name, jsonName, optionsBytes) =>
    match optionsBytes with
    | some ob => (readPgvFromOptionsBytes dec ob).map (fun r => (fieldKey jsonName name, r))
    | none => none

/-- `DescriptorCache.extractPgvFromRawMessage(pkg, body, index, parents)`:
rule-index additions of one raw message body and its nested bodies. -/
def extractPgvFromRawMessage (dec : List Nat → Option PgvRules) (pkg : String)
    (body : List Nat) (parents : List String) :
    List ((String × String) × PgvRules) :=
  match hscan : rawMsgScanGo body 0 "" [] [] with
  | (name, fields, nested) =>
    (fields.filterMap (fun fb =>
      (extractPgvFromRawField dec fb).map
        (fun kr => ((pgvFqtn pkg parents name, kr.1), kr.2))))
    ++ (nested.attach.map (fun n =>
          extractPgvFromRawMessage dec pkg n.1 (parents ++ [name]))).flatten
termination_by body.length
decreasing_by
  have hlt := rawMsgScanGo_nested_lt body 0 "" [] [] (by simp)
  rw [hscan] at hlt
  exact hlt n.1 n.2

/-- `DescriptorCache.extractPgvFromRawFile(buf, index)`: scan the raw file
for its package and message bodies, then extract from each body. -/
def extractPgvFromRawFile (dec : List Nat → Option PgvRules) (buf : List Nat) :
    List ((String × String) × PgvRules) :=
  match rawFileScanGo buf 0 "" [] with
  | (pkg, bodies) => (bodies.map (fun b => extractPgvFromRawMessage dec pkg b [])).flatten


/-! ## Part 6: address-keyed caches (`getTypesRoot` / `getPgvRuleIndex`)

Source: `src/unnamed/part_005`, first revision: `getTypesRoot` (lines
153-177) and `getPgvRuleIndex` (262-294); both revisions share the cache
logic.  The mutable `Map`s of the `DescriptorCache` instance become explicit
state; JS object/Map insertion keeps position on overwrite (`setAssoc`).
`Root.fromDescriptor(buildDescriptorSetObject(bytes))` + `resolveAll()` is a
library boundary, deterministic in the fetched descriptor set, recorded by
`PbRoot.build`; `FileDescriptorProto.deserializeBinary` is the boundary
`deser` (returning `none` models its throw, which the source catches and
ignores); `dec` is the tier-1 `fromBinary(FieldRulesSchema, ...)` boundary.
The third component of each result counts the reflection fetches the call
performed. -/

/-- `map.get(k)` over an association list. -/
def assocLookup (l : List (String × α)) (k : String) : Option α :=
  (l.find? (fun p => p.1 = k)).map Prod.snd

/-- `map.set(k, v)` / JS object property write: overwrite in place, append
when new. -/
def setAssoc : List (String × α) → String → α → List (String × α)
  | [], k, v => [(k, v)]
  | (k2, v2) :: rest, k, v =>
    if k2 = k then (k2, v) :: rest else (k2, v2) :: setAssoc rest k v

/-- The protobufjs `Root` built from a fetched descriptor set (library
boundary, deterministic in the fetched files). -/
structure PbRoot where
  sourceFiles : List ReflFile
  deriving DecidableEq, Repr

/-- `new pb.Root()` -/
def PbRoot.empty : PbRoot := ⟨[]⟩

/-- `Root.fromDescriptor(buildDescriptorSetObject(fdpBytes))` + `resolveAll()`. -/
def PbRoot.build (files : List ReflFile) : PbRoot := ⟨files⟩

/-- The PGV rule index `Record<fqtn, Record<fieldName, rules>>`. -/
def PgvIndex : Type := List (String × List (String × PgvRules))

instance : DecidableEq PgvIndex := by
  unfold PgvIndex
  infer_instance

/-- `index[fqtn][name] = rules` (creating `index[fqtn]` when absent). -/
def indexInsert (idx : PgvIndex) (fqtn field : String) (r : PgvRules) : PgvIndex :=
  setAssoc idx fqtn (setAssoc ((assocLookup idx fqtn).getD []) field r)

/-- Replay a list of rule additions into an (initially empty) index. -/
def buildIndex (adds : List ((String × String) × PgvRules)) : PgvIndex :=
  adds.foldl (fun idx a => indexInsert idx a.1.1 a.1.2 a.2) []

/-- The index-construction body of `getPgvRuleIndex`: structured extraction
over each deserializable file; when it contributed nothing
(`totalAdded === 0`), re-parse every raw file with the fallback parsers. -/
def buildPgvIndex (deser : List Nat → Option FdpStruct)
    (dec : List Nat → Option PgvRules) (files : List ReflFile) : PgvIndex :=
  let structuredAdds :=
    (files.filterMap (fun f =>
      (deser f.raw).map (fun v =>
        (v.messages.map (fun m => extractPgvFromMessage dec v.package m [])).flatten))).flatten
  buildIndex
    (if structuredAdds.isEmpty then
      (files.map (fun f => extractPgvFromRawFile dec f.raw)).flatten
    else structuredAdds)

/-- The mutable caches of one `DescriptorCache` instance. -/
structure CacheState where
  rootCache : List (String × PbRoot) := []
  pgvCache : List (String × PgvIndex) := []
  deriving DecidableEq

/-- `DescriptorCache.getTypesRoot(address, fullyQualifiedTypeNames)`: the
cache key is `` `${address}` `` alone; on a miss the unique non-empty type
names are fetched by symbol and the built root is cached.  The `Nat`
component counts reflection fetches. -/
def getTypesRoot (srv : ReflServer) (st : CacheState) (address : String)
    (names : List String) : PbRoot × CacheState × Nat :=
  match assocLookup st.rootCache address with
  | some root => (root, st, 0)
  | none =>
    if (firstDedup (names.filter (fun s => s ≠ ""))).isEmpty then
      (PbRoot.empty,
        { st with rootCache := setAssoc st.rootCache address PbRoot.empty }, 0)
    else
      let root := PbRoot.build
        (fetchSymbolsBatch srv (firstDedup (names.filter (fun s => s ≠ ""))))
      (root, { st with rootCache := setAssoc st.rootCache address root }, 1)

/-- `DescriptorCache.getPgvRuleIndex(address, fullyQualifiedTypeNames)`:
keyed by `` `${address}` `` alone; on a miss, fetch, build the index, and
cache it. -/
def getPgvRuleIndex (deser : List Nat → Option FdpStruct)
    (dec : List Nat → Option PgvRules) (srv : ReflServer) (st : CacheState)
    (address : String) (names : List String) : PgvIndex × CacheState × Nat :=
  match assocLookup st.pgvCache address with
  | some idx => (idx, st, 0)
  | none =>
    let idx := buildPgvIndex deser dec
      (fetchSymbolsBatch srv (firstDedup (names.filter (fun s => s ≠ ""))))
    (idx, { st with pgvCache := setAssoc st.pgvCache address idx }, 1)


/-- The root `demoServer` builds for `pkg.Root` (used by concrete cache
runs). -/
def demoRoot : PbRoot :=
  PbRoot.build [{ name := "root.proto", deps := ["a.proto"] }]

/-- Cache state after a first `getTypesRoot` call for `localhost:50051`. -/
def demoSt1 : CacheState :=
  { rootCache := [("localhost:50051", demoRoot)], pgvCache := [] }

/-- Cache state after a further first `getPgvRuleIndex` call. -/
def demoSt2 : CacheState :=
  { rootCache := [("localhost:50051", demoRoot)],
    pgvCache := [("localhost:50051", ([] : List (String × List (String × PgvRules))))] }


/-! ## Part 7: descriptor-object normalization (`normalizeDescriptorEnums`)

Source: `src/unnamed/part_005`, first revision, lines 613-676 (identical in
the second revision, lines 1194-1257).  The decoded file-descriptor JSON
object is modelled structurally; `field.type` / `field.label` may arrive as
a symbolic enum-name string or an integer code (`EnumVal`); `oneofDecl`
models `msg.oneofDecl`, `none` standing for a missing/non-array value.  The
runtime table `pbDescriptor.FieldDescriptorProto.Type ?? {}` agrees with the
source's fallback table on every symbolic name, so a single table models the
`typeEnum[t] ?? fallbackTypeEnum[t] ?? t` chain. -/

/-- A descriptor-JSON enum value: symbolic name or integer code. -/
inductive EnumVal where
  | str (s : String)
  | num (n : Nat)
  deriving DecidableEq, Repr

/-- A field object of a decoded `DescriptorProto`. -/
structure FieldObj where
  type : EnumVal
  label : EnumVal
  oneofIndex : Option Nat := none
  deriving DecidableEq, Repr

/-- A message object of a decoded file descriptor. -/
inductive MsgObj where
  | node (oneofDecl : Option (List Unit)) (field : List FieldObj)
      (nestedType : List MsgObj)

/-- `msg.oneofDecl` -/
def MsgObj.oneofDecl : MsgObj → Option (List Unit)
  | .node o _ _ => o

/-- `msg.field` -/
def MsgObj.field : MsgObj → List FieldObj
  | .node _ f _ => f

/-- `msg.nestedType` -/
def MsgObj.nestedType : MsgObj → List MsgObj
  | .node _ _ n => n

/-- A decoded file-descriptor object (only the parts the fixup visits). -/
structure FileObj where
  messageType : List MsgObj

/-- The source's `fallbackTypeEnum` table. -/
def fallbackTypeEnum : List (String × Nat) :=
  [("TYPE_DOUBLE", 1), ("TYPE_FLOAT", 2), ("TYPE_INT64", 3), ("TYPE_UINT64", 4),
   ("TYPE_INT32", 5), ("TYPE_FIXED64", 6), ("TYPE_FIXED32", 7), ("TYPE_BOOL", 8),
   ("TYPE_STRING", 9), ("TYPE_GROUP", 10), ("TYPE_MESSAGE", 11), ("TYPE_BYTES", 12),
   ("TYPE_UINT32", 13), ("TYPE_ENUM", 14), ("TYPE_SFIXED32", 15),
   ("TYPE_SFIXED64", 16), ("TYPE_SINT32", 17), ("TYPE_SINT64", 18)]

/-- The source's `fallbackLabelEnum` table. -/
def fallbackLabelEnum : List (String × Nat) :=
  [("LABEL_OPTIONAL", 1), ("LABEL_REQUIRED", 2), ("LABEL_REPEATED", 3)]

/-- `typeof v === 'string' ? (table[v] ?? v) : v` - the per-value rewrite of
the normalization loop. -/
def enumRewrite (table : List (String × Nat)) (v : EnumVal) : EnumVal :=
  match v with
  | .str s =>
    match assocLookup table s with
    | some n => .num n
    | none => .str s
  | .num n => .num n

/-- The body of the normalization loop on one field (runs after the
`oneofIndex` deletion pass). -/
def normalizeFieldEnums (f : FieldObj) : FieldObj :=
  { f with
    type := enumRewrite fallbackTypeEnum f.type,
    label := enumRewrite fallbackLabelEnum f.label }

/-- `delete field.oneofIndex` -/
def clearOneofIndex (f : FieldObj) : FieldObj :=
  { f with oneofIndex := none }

/-- `!Array.isArray(msg.oneofDecl) || msg.oneofDecl.length === 0` -/
def hasZeroOneofs (m : MsgObj) : Bool :=
  match m.oneofDecl with
  | none => true
  | some l => l.isEmpty

/-- `fixMessage` of `normalizeDescriptorEnums`: first the conditional
`oneofIndex` deletion pass, then the type/label rewrite pass, then the same
fix on every nested message. -/
def fixMessage (m : MsgObj) : MsgObj :=
  match m with
  | .node oneofDecl fields nested =>
    let fields1 : List FieldObj :=
      if (match oneofDecl with
          | none => true
          | some l => l.isEmpty) then
        fields.map clearOneofIndex
      else fields
    .node oneofDecl (fields1.map normalizeFieldEnums)
      (nested.attach.map (fun n => fixMessage n.1))
termination_by sizeOf m
decreasing_by
  have := List.sizeOf_lt_of_mem n.2
  simp only [MsgObj.node.sizeOf_spec]
  omega

/-- `DescriptorCache.normalizeDescriptorEnums(fileObj)`: fix every top-level
message (the mutation is modelled by returning the fixed object). -/
def normalizeDescriptorEnums (file : FileObj) : FileObj :=
  { file with messageType := file.messageType.map fixMessage }

/-- A concrete message declaring zero oneof groups whose single field
carries a symbolic type, a numeric label and a stray `oneofIndex`. -/
def demoMsgNoOneof : MsgObj :=
  .node (some [])
    [{ type := .str "TYPE_STRING", label := .num 1, oneofIndex := some 0 }] []

/-- Modelled from the spec, for comparison with `fixMessage`: a symbolic
enum name is resolved to its canonical integer code, a value already numeric
is unchanged (and a name outside the table is left as it arrived). -/
def canonicalEnumValue (table : List (String × Nat)) (v : EnumVal) : EnumVal :=
  match v with
  | .num n => .num n
  | .str s => ((assocLookup table s).map EnumVal.num).getD (.str s)


/-! ## Part 8: the dynamic codec (`DynamicProtoCodec`)

Source: `src/unnamed/part_005`, first revision, lines 702-743, and
`src/client/ts/src/codec.ts`, lines 336-365 (identical).  `encodeToAny`,
`decodeAny`, `lookupType` and `createMessage` are embedded from the source;
the protobufjs primitives they delegate to (`Type.verify`, `Type.fromObject`,
`Type.encode`, `Type.decode`, `Type.toObject`) are third-party library code
not in the repository and are modelled from the spec:

* `verify` - "fails with ShapeMismatch if value contains a field absent from
  the type, or a field whose supplied value cannot be coerced to the
  declared scalar kind";
* the wire pair `encode` / `decode` - standard proto3 wire format (varints,
  length-delimited strings and bytes, fixed 64/32-bit floats carried as bit
  patterns, defaults skipped on encode), with `toObject({defaults: true})`
  materializing every field.

Floating-point fields are represented by their IEEE bit patterns
(`doubleBits` / `floatBits`), which is exactly what the wire carries. -/

/-- The scalar kinds the dynamic codec supports. -/
inductive ScalarKind where
  | string
  | bool
  | int32
  | int64
  | uint32
  | uint64
  | bytes
  | enum
  | double
  | float
  deriving DecidableEq, Repr

/-- A field of a message type (`pb.Field`): name, number, scalar kind. -/
structure CField where
  name : String
  number : Nat
  kind : ScalarKind
  deriving DecidableEq, Repr

/-- A message type (`pb.Type`): its fields in declaration order. -/
structure CType where
  fields : List CField
  deriving DecidableEq, Repr

/-- The queryable registry behind `root.lookupTypeOrEnum`. -/
def Registry : Type := List (String × CType)

/-- A runtime value for one field. -/
inductive CValue where
  | str (s : String)
  | boolean (b : Bool)
  | i32 (v : Int)
  | i64 (v : Int)
  | u32 (n : Nat)
  | u64 (n : Nat)
  | bytes (bs : List Nat)
  | enum (v : Int)
  | doubleBits (n : Nat)
  | floatBits (n : Nat)
  deriving DecidableEq, Repr

/-- Can the supplied value be coerced to the declared scalar kind?
(Constructor and range agreement.) -/
def kindMatches : ScalarKind → CValue → Bool
  | .string, .str _ => true
  | .bool, .boolean _ => true
  | .int32, .i32 v => decide (-(2 ^ 31) ≤ v ∧ v < 2 ^ 31)
  | .int64, .i64 v => decide (-(2 ^ 63) ≤ v ∧ v < 2 ^ 63)
  | .uint32, .u32 n => decide (n < 2 ^ 32)
  | .uint64, .u64 n => decide (n < 2 ^ 64)
  | .bytes, .bytes bs => bs.all (fun b => b < 256)
  | .enum, .enum v => decide (-(2 ^ 31) ≤ v ∧ v < 2 ^ 31)
  | .double, .doubleBits n => decide (n < 2 ^ 64)
  | .float, .floatBits n => decide (n < 2 ^ 32)
  | _, _ => false

/-- Modelled from the spec: protobufjs `Type.verify` - the first unknown key
or uncoercible value yields the shape-mismatch message, otherwise `null`. -/
def verify (T : CType) (value : List (String × CValue)) : Option String :=
  match value.find? (fun p => (T.fields.find? (fun f => f.name = p.1)).isNone) with
  | some p => some ("object has unknown field " ++ p.1)
  | none =>
    match value.find? (fun p =>
        match T.fields.find? (fun f => f.name = p.1) with
        | some f => !kindMatches f.kind p.2
        | none => false) with
    | some p => some ("invalid value for field " ++ p.1)
    | none => none

/-- The proto3 default of each scalar kind. -/
def defaultValue : ScalarKind → CValue
  | .string => .str ""
  | .bool => .boolean false
  | .int32 => .i32 0
  | .int64 => .i64 0
  | .uint32 => .u32 0
  | .uint64 => .u64 0
  | .bytes => .bytes []
  | .enum => .enum 0
  | .double => .doubleBits 0
  | .float => .floatBits 0

/-- Is the value its kind's proto3 default (skipped on the wire)? -/
def isDefault : CValue → Bool
  | .str s => s = ""
  | .boolean b => !b
  | .i32 v => v = 0
  | .i64 v => v = 0
  | .u32 n => n = 0
  | .u64 n => n = 0
  | .bytes bs => bs.isEmpty
  | .enum v => v = 0
  | .doubleBits n => n = 0
  | .floatBits n => n = 0

/-- `candidate[name]` on the structured input object. -/
def assocFind (value : List (String × CValue)) (name : String) : Option CValue :=
  (value.find? (fun p => p.1 = name)).map Prod.snd

/-- Modelled from the spec: protobufjs `Type.fromObject` followed by
`toObject({defaults: true})` - the canonical total message object. -/
def fromObject (T : CType) (value : List (String × CValue)) :
    List (String × CValue) :=
  T.fields.map (fun f => (f.name, (assocFind value f.name).getD (defaultValue f.kind)))

/-- Little-endian base-128 varint encoding. -/
def encodeVarint (n : Nat) : List Nat :=
  if n < 128 then [n] else (n % 128 + 128) :: encodeVarint (n / 128)
termination_by n
decreasing_by exact Nat.div_lt_self (by omega) (by omega)

/-- Varint decoding, consuming from the front of the byte list. -/
def decodeVarintL : List Nat → Option (Nat × List Nat)
  | [] => none
  | b :: rest =>
    if b < 128 then some (b, rest)
    else
      match decodeVarintL rest with
      | some (m, r) => some ((b - 128) + 128 * m, r)
      | none => none

/-- `w`-byte little-endian fixed-width encoding. -/
def encodeFixed : Nat → Nat → List Nat
  | 0, _ => []
  | w + 1, n => (n % 256) :: encodeFixed w (n / 256)

/-- `w`-byte little-endian fixed-width decoding. -/
def decodeFixed : Nat → List Nat → Option (Nat × List Nat)
  | 0, bs => some (0, bs)
  | _ + 1, [] => none
  | w + 1, b :: rest => (decodeFixed w rest).map (fun p => (b + 256 * p.1, p.2))

/-- One character's UTF-8 bytes. -/
def utf8EncodeChar (c : Char) : List Nat :=
  let n := c.toNat
  if n < 128 then [n]
  else if n < 2048 then [192 + n / 64, 128 + n % 64]
  else if n < 65536 then [224 + n / 4096, 128 + (n / 64) % 64, 128 + n % 64]
  else [240 + n / 262144, 128 + (n / 4096) % 64, 128 + (n / 64) % 64, 128 + n % 64]

/-- A string's UTF-8 bytes. -/
def utf8Encode (s : String) : List Nat :=
  (s.data.map utf8EncodeChar).flatten

/-- The 64-bit two's-complement wire image of a signed value. -/
def toWire64 (v : Int) : Nat :=
  (v % (2 ^ 64 : Int)).toNat

/-- Reading a wire integer back as int32 (low 32 bits, sign interpreted). -/
def fromWire32 (n : Nat) : Int :=
  if n % 2 ^ 32 < 2 ^ 31 then ((n % 2 ^ 32 : Nat) : Int)
  else ((n % 2 ^ 32 : Nat) : Int) - 2 ^ 32

/-- Reading a wire integer back as int64. -/
def fromWire64 (n : Nat) : Int :=
  if n % 2 ^ 64 < 2 ^ 63 then ((n % 2 ^ 64 : Nat) : Int)
  else ((n % 2 ^ 64 : Nat) : Int) - 2 ^ 64

/-- The wire type of each scalar kind. -/
def wireTypeOf : ScalarKind → Nat
  | .string => 2
  | .bytes => 2
  | .double => 1
  | .float => 5
  | _ => 0

/-- The payload bytes of one value. -/
def encodePayload : CValue → List Nat
  | .str s => encodeVarint (utf8Encode s).length ++ utf8Encode s
  | .bytes bs => encodeVarint bs.length ++ bs
  | .boolean b => encodeVarint (if b then 1 else 0)
  | .u32 n => encodeVarint n
  | .u64 n => encodeVarint n
  | .i32 v => encodeVarint (toWire64 v)
  | .i64 v => encodeVarint (toWire64 v)
  | .enum v => encodeVarint (toWire64 v)
  | .doubleBits n => encodeFixed 8 n
  | .floatBits n => encodeFixed 4 n

/-- One field on the wire: tag then payload; proto3 defaults are skipped. -/
def encodeField (f : CField) (v : CValue) : List Nat :=
  if isDefault v then []
  else encodeVarint (f.number * 8 + wireTypeOf f.kind) ++ encodePayload v

/-- Encoding a field list against the structured input. -/
def encodeFieldsList (fs : List CField) (value : List (String × CValue)) :
    List Nat :=
  (fs.map (fun f =>
    match assocFind value f.name with
    | some v => encodeField f v
    | none => [])).flatten

/-- Modelled from the spec: protobufjs `Type.encode(msg).finish()` over the
canonical object. -/
def encodeMessage (T : CType) (value : List (String × CValue)) : List Nat :=
  encodeFieldsList T.fields value

/-- Decoding one payload according to the field's kind. -/
def decodePayload (k : ScalarKind) (bs : List Nat) : Option (CValue × List Nat) :=
  match k with
  | .string =>
    match decodeVarintL bs with
    | some (len, rest) =>
      if len ≤ rest.length then some (.str (utf8Decode (rest.take len)), rest.drop len)
      else none
    | none => none
  | .bytes =>
    match decodeVarintL bs with
    | some (len, rest) =>
      if len ≤ rest.length then some (.bytes (rest.take len), rest.drop len)
      else none
    | none => none
  | .bool => (decodeVarintL bs).map (fun p => (.boolean (p.1 != 0), p.2))
  | .uint32 => (decodeVarintL bs).map (fun p => (.u32 (p.1 % 2 ^ 32), p.2))
  | .uint64 => (decodeVarintL bs).map (fun p => (.u64 (p.1 % 2 ^ 64), p.2))
  | .int32 => (decodeVarintL bs).map (fun p => (.i32 (fromWire32 p.1), p.2))
  | .int64 => (decodeVarintL bs).map (fun p => (.i64 (fromWire64 p.1), p.2))
  | .enum => (decodeVarintL bs).map (fun p => (.enum (fromWire32 p.1), p.2))
  | .double => (decodeFixed 8 bs).map (fun p => (.doubleBits p.1, p.2))
  | .float => (decodeFixed 4 bs).map (fun p => (.floatBits p.1, p.2))

/-- Skipping an unknown or mismatched field's payload. -/
def skipWire (wt : Nat) (bs : List Nat) : Option (List Nat) :=
  match wt with
  | 0 => (decodeVarintL bs).map Prod.snd
  | 1 => if 8 ≤ bs.length then some (bs.drop 8) else none
  | 2 =>
    match decodeVarintL bs with
    | some (len, rest) => if len ≤ rest.length then some (rest.drop len) else none
    | none => none
  | 5 => if 4 ≤ bs.length then some (bs.drop 4) else none
  | _ => none

/-- `map[number] = v` for decoded field values (last write wins). -/
def setNatAssoc : List (Nat × CValue) → Nat → CValue → List (Nat × CValue)
  | [], n, v => [(n, v)]
  | (n2, v2) :: rest, n, v =>
    if n2 = n then (n2, v) :: rest else (n2, v2) :: setNatAssoc rest n v

/-- `map[number]` for decoded field values. -/
def lookupNatAssoc (l : List (Nat × CValue)) (n : Nat) : Option CValue :=
  (l.find? (fun p => p.1 = n)).map Prod.snd

/-- The wire-decoding loop: read a tag, decode or skip the payload, record
the value; the fuel bounds the number of fields and never runs out on a
buffer of that length, since every iteration consumes at least one byte. -/
def decodeFieldsGo (T : CType) :
    Nat → List Nat → List (Nat × CValue) → Option (List (Nat × CValue))
  | _, [], acc => some acc
  | 0, _ :: _, _ => none
  | fuel + 1, bs, acc =>
    match decodeVarintL bs with
    | none => none
    | some (tag, rest) =>
      match T.fields.find? (fun f => f.number = tag / 8) with
      | some f =>
        if wireTypeOf f.kind = tag % 8 then
          match decodePayload f.kind rest with
          | some (v, rest2) => decodeFieldsGo T fuel rest2 (setNatAssoc acc (tag / 8) v)
          | none => none
        else
          match skipWire (tag % 8) rest with
          | some rest2 => decodeFieldsGo T fuel rest2 acc
          | none => none
      | none =>
        match skipWire (tag % 8) rest with
        | some rest2 => decodeFieldsGo T fuel rest2 acc
        | none => none

/-- Modelled from the spec: protobufjs `Type.toObject(msg, {defaults: true})`
materializes every field, defaults included, in declaration order. -/
def toObject (T : CType) (m : List (Nat × CValue)) : List (String × CValue) :=
  T.fields.map (fun f => (f.name, (lookupNatAssoc m f.number).getD (defaultValue f.kind)))

/-- Modelled from the spec: protobufjs `Type.decode(bytes)` then
`toObject({defaults: true})`. -/
def decodeMessage (T : CType) (bs : List Nat) : Option (List (String × CValue)) :=
  (decodeFieldsGo T bs.length bs []).map (toObject T)

/-- The errors the codec surfaces. -/
inductive CodecError where
  | missingTypeUrl
  | typeNotFound (fqtn : String)
  | invalidValue (fqtn : String) (msg : String)
  | decodeFailed
  deriving DecidableEq, Repr

/-- `{ typeUrl, value }` - the wire form of a `google.protobuf.Any`. -/
structure AnyEnvelope where
  typeUrl : String
  value : List Nat
  deriving DecidableEq, Repr

/-- `DynamicProtoCodec.lookupType(fqtn)`: the registry lookup behind
`root.lookupTypeOrEnum`, failing with the type-not-found error. -/
def lookupType (reg : Registry) (fqtn : String) : Option CType :=
  (reg.find? (fun p => p.1 = fqtn)).map Prod.snd

/-- `DynamicProtoCodec.encodeToAny(fqtn, jsonValue)`: look the type up,
verify the shape, encode, and wrap with the
`type.googleapis.com/<fqtn>` URL. -/
def encodeToAny (reg : Registry) (fqtn : String)
    (value : List (String × CValue)) : Except CodecError AnyEnvelope :=
  match lookupType reg fqtn with
  | none => .error (.typeNotFound fqtn)
  | some T =>
    match verify T value with
    | some err => .error (.invalidValue fqtn err)
    | none =>
      .ok { typeUrl := "type.googleapis.com/" ++ fqtn,
            value := encodeMessage T (fromObject T value) }

/-- `typeUrl.replace(/^type\.googleapis\.com\//, "")`: strip one leading
occurrence of the prefix, leave anything else untouched. -/
def stripTypePrefix (url : String) : String :=
  if "type.googleapis.com/".data.isPrefixOf url.data then
    String.mk (url.data.drop 20)
  else url

/-- `DynamicProtoCodec.decodeAny(anyMsg)`: an empty (falsy) `typeUrl` fails;
otherwise the prefix is stripped if present, the remaining name is looked up
in the registry, and the payload is decoded with defaults materialized. -/
def decodeAny (reg : Registry) (env : AnyEnvelope) :
    Except CodecError (List (String × CValue)) :=
  if env.typeUrl = "" then .error .missingTypeUrl
  else
    match lookupType reg (stripTypePrefix env.typeUrl) with
    | none => .error (.typeNotFound (stripTypePrefix env.typeUrl))
    | some T =>
      match decodeMessage T env.value with
      | none => .error .decodeFailed
      | some obj => .ok obj

/-- `DynamicProtoCodec.createMessage(fqtn, jsonValue)`: `null` or an empty
object short-circuits to `Type.create()` (the all-defaults message);
otherwise the input is verified and materialized.  `none` models a `null`
`jsonValue`. -/
def createMessage (reg : Registry) (fqtn : String)
    (value : Option (List (String × CValue))) :
    Except CodecError (List (String × CValue)) :=
  match lookupType reg fqtn with
  | none => .error (.typeNotFound fqtn)
  | some T =>
    match value with
    | none => .ok (fromObject T [])
    | some v =>
      if v.isEmpty then .ok (fromObject T [])
      else
        match verify T v with
        | some err => .error (.invalidValue fqtn err)
        | none => .ok (fromObject T v)


/-- The canonical total message object for a type: one entry per field, in
declaration order, named after the field and matching its kind (this is the
shape `toObject({defaults: true})` produces). -/
def validForGo : List CField → List (String × CValue) → Bool
  | [], [] => true
  | f :: fs, p :: ps =>
    p.1 = f.name && kindMatches f.kind p.2 && validForGo fs ps
  | _, _ => false

/-- `value` is a canonical total message object of type `T`. -/
def validFor (T : CType) (value : List (String × CValue)) : Bool :=
  validForGo T.fields value


/-- The field a key addresses: the first field with that name. -/
def fieldFor (T : CType) (key : String) : Option CField :=
  T.fields.find? (fun f => f.name = key)

/-- One input entry is acceptable: its key names a field and its value is
coercible to that field's kind. -/
def coercibleEntry (T : CType) (p : String × CValue) : Bool :=
  match fieldFor T p.1 with
  | some f => kindMatches f.kind p.2
  | none => false

/-- The whole input matches the type's shape. -/
def shapeOk (T : CType) (value : List (String × CValue)) : Bool :=
  value.all (coercibleEntry T)


end GMcp

namespace GMcp

/-! ## Theorems -/

/-- The imperative accumulator loop of `applyPgvIndexRules` appends exactly
one violation per failing field, decided by `firstFieldViolation`. -/
theorem applyPgvIndexRulesGo_eq_filterMap (fieldMap : List (String × PgvRules))
    (candidate : List (String × JsVal)) (fields : List String)
    (violations : List String) :
    applyPgvIndexRulesGo fieldMap candidate fields violations
      = violations ++ fields.filterMap (firstFieldViolation fieldMap candidate) := by
  induction fields generalizing violations with
  | nil => simp [applyPgvIndexRulesGo]
  | cons name rest ih =>
    simp only [applyPgvIndexRulesGo, List.filterMap_cons]
    cases h : (fieldMap.find? (fun p => p.1 == name)).map Prod.snd with
    | none => simp [firstFieldViolation, h, ih]
    | some rules =>
      by_cases hreq : (rules.messageRequired && isRequiredViolation (jsGet candidate name)) = true
      · simp [firstFieldViolation, h, hreq, ih]
      · cases hsr : rules.stringRules with
        | none => simp [firstFieldViolation, h, hreq, hsr, ih]
        | some sr =>
          cases hml : sr.minLen with
          | none =>
            by_cases hin : ((¬sr.inList = []) ∧ ¬jsStrOf (jsGet candidate name) = "")
                ∧ jsStrOf (jsGet candidate name) ∉ sr.inList
            · simp [firstFieldViolation, h, hreq, hsr, hml, hin, ih]
            · simp [firstFieldViolation, h, hreq, hsr, hml, hin, ih]
          | some m =>
            by_cases hlen : ((jsStrOf (jsGet candidate name)).length < m)
            · simp [firstFieldViolation, h, hreq, hsr, hml, hlen, ih]
            · by_cases hin : ((¬sr.inList = []) ∧ ¬jsStrOf (jsGet candidate name) = "")
                  ∧ jsStrOf (jsGet candidate name) ∉ sr.inList
              · simp [firstFieldViolation, h, hreq, hsr, hml, hlen, hin, ih]
              · simp [firstFieldViolation, h, hreq, hsr, hml, hlen, hin, ih]

/-- C4: validation checks each field's rules in the fixed order required-ness,
then minimum string length, then enumerated membership; the first failing rule
per field yields exactly one violation and skips the field's remaining rules;
violations appear in field declaration order (one `filterMap` over the fields).
In particular the weather-scenario input `location: "", units: "metric"` with
`location` required yields exactly the single violation
`field 'location' is required`. -/
theorem applyPgvIndexRules_order_and_scenario :
    (∀ (fieldMap : List (String × PgvRules)) (fields : List String)
        (candidate : List (String × JsVal)),
      applyPgvIndexRules fieldMap fields candidate
        = fields.filterMap (firstFieldViolation fieldMap candidate))
    ∧ applyPgvIndexRules weatherFieldMap ["location", "units"]
        [("location", .str ""), ("units", .str "metric")]
        = ["field \x27location\x27 is required"] := by
  constructor
  · intro fieldMap fields candidate
    simpa using applyPgvIndexRulesGo_eq_filterMap fieldMap candidate fields []
  · decide


/-- C10: the raw option scanners make strict progress and stay in bounds -
`readVarint` consumes at least one byte whenever the offset is below the
buffer length and never returns an offset past the buffer end (or past the
starting offset when that already lies beyond the end); `skipField` never
decreases the offset; hence each scanner-loop iteration (a tag read followed
by a skip) strictly increases the read offset.  These are exactly the facts
by which `findExtensionGo`, `decodeNamePartGo`, `decodeUninterpretedOptionGo`
and `readUninterpretedOptionsGo` are accepted as total functions by
well-founded recursion on `buf.length - off`, so every scanner terminates on
every finite byte array, truncated or malformed input included. -/
theorem scanners_progress_and_bounds :
    (∀ (buf : List Nat) (off : Nat), off < buf.length → off < (readVarint buf off).2)
    ∧ (∀ (buf : List Nat) (off : Nat), (readVarint buf off).2 ≤ max off buf.length)
    ∧ (∀ (buf : List Nat) (off wt : Nat), off ≤ skipField buf off wt)
    ∧ (∀ (buf : List Nat) (off : Nat), off < buf.length →
        off < skipField buf (readVarint buf off).2 ((readVarint buf off).1 &&& 7)) := by
  refine ⟨readVarint_snd_gt, readVarint_snd_le, skipField_ge, ?_⟩
  intro buf off h
  have h1 := readVarint_snd_gt buf off h
  have h2 := skipField_ge buf (readVarint buf off).2 ((readVarint buf off).1 &&& 7)
  omega

/-- Witness for `scanners_progress_and_bounds` on the concrete two-byte
buffer `[172, 2]` (the varint encoding of 300): its offset is strictly
advanced and stays within bounds. -/
theorem scanners_progress_and_bounds_witness :
    0 < (readVarint [172, 2] 0).2
    ∧ 0 < skipField [172, 2] (readVarint [172, 2] 0).2 ((readVarint [172, 2] 0).1 &&& 7) :=
  ⟨scanners_progress_and_bounds.1 [172, 2] 0 (by decide),
   scanners_progress_and_bounds.2.2.2 [172, 2] 0 (by decide)⟩

/-- Processing a run of non-settling events just accumulates descriptors. -/
theorem runBatchGo_nonSettling_append (pre : List StreamEvent)
    (tail : List StreamEvent) (out : List (String × Nat))
    (h : ∀ e ∈ pre, nonSettling e = true) :
    runBatchGo out (pre ++ tail) = runBatchGo (collectDescriptorsGo out pre) tail := by
  induction pre generalizing out with
  | nil => simp [collectDescriptorsGo]
  | cons e rest ih =>
    cases e with
    | data blobs =>
      simp only [List.cons_append, runBatchGo, collectDescriptorsGo]
      exact ih (addBlobs out blobs) (fun e he => h e (List.mem_cons_of_mem _ he))
    | errorResponse =>
      simp only [List.cons_append, runBatchGo, collectDescriptorsGo]
      exact ih out (fun e he => h e (List.mem_cons_of_mem _ he))
    | streamError => exact absurd (h _ (List.mem_cons_self _ _)) (by simp [nonSettling])
    | streamEnd => exact absurd (h _ (List.mem_cons_self _ _)) (by simp [nonSettling])

/-- C1 (amended): an `error_response` message from the reflection service is
ignored by the batch call - when the stream subsequently ends (or the safety
timeout fires, the exhausted-list case), the call resolves with all
descriptors collected so far, including the empty collection when none
arrived before the error; only a transport-level stream `error` event rejects
the call, and it does so even when descriptors were already collected. -/
theorem fetchBatch_error_response_ignored (pre post : List StreamEvent)
    (h : ∀ e ∈ pre, nonSettling e = true) :
    runBatch (pre ++ .streamEnd :: post) = .ok (collectDescriptors pre)
    ∧ runBatch pre = .ok (collectDescriptors pre)
    ∧ runBatch (pre ++ .streamError :: post) = .error () := by
  refine ⟨?_, ?_, ?_⟩
  · rw [runBatch, runBatchGo_nonSettling_append pre _ [] h]
    rfl
  · have := runBatchGo_nonSettling_append pre [] [] h
    simpa [runBatch, runBatchGo, collectDescriptors] using this
  · rw [runBatch, runBatchGo_nonSettling_append pre _ [] h]
    rfl

/-- Witness for `fetchBatch_error_response_ignored`: two of three requested
symbols are answered, then the service reports an error for the third and the
stream ends; the call returns the two collected entries. -/
theorem fetchBatch_error_response_ignored_witness :
    runBatch [.data [some ("weather.proto", 1)], .data [some ("common.proto", 2)],
        .errorResponse, .streamEnd]
      = .ok [("weather.proto", 1), ("common.proto", 2)] := by
  have h := fetchBatch_error_response_ignored
    [.data [some ("weather.proto", 1)], .data [some ("common.proto", 2)], .errorResponse]
    [] (by decide)
  have h1 := h.1
  simpa using h1

/-- C1 counterexample: an `error_response` with zero descriptors collected
does **not** propagate as a failure - the call resolves with the empty
collection when the stream then ends. -/
theorem fetchBatch_empty_error_response_resolves :
    runBatch [.errorResponse, .streamEnd] = .ok [] := by
  rfl


/-- Unfolding one step of `addPendingDeps`. -/
theorem addPendingDeps_cons (all : List ReflFile) (p : List String) (e : String)
    (rest : List String) :
    addPendingDeps all p (e :: rest)
      = addPendingDeps all
          (if (fileNames all).contains e || p.contains e then p else p ++ [e]) rest := rfl

/-- `pending` only grows under `addPendingDeps`. -/
theorem addPendingDeps_mem (all : List ReflFile) (pending deps : List String)
    (x : String) (hx : x ∈ pending) : x ∈ addPendingDeps all pending deps := by
  induction deps generalizing pending with
  | nil => simpa [addPendingDeps] using hx
  | cons e rest ih =>
    rw [addPendingDeps_cons]
    apply ih
    split
    · exact hx
    · exact List.mem_append_left _ hx

/-- Every dependency handed to `addPendingDeps` ends up either among the
fetched file names or in the resulting pending set. -/
theorem addPendingDeps_covers (all : List ReflFile) (pending deps : List String)
    (d : String) (hd : d ∈ deps) :
    d ∈ fileNames all ∨ d ∈ addPendingDeps all pending deps := by
  induction deps generalizing pending with
  | nil => cases hd
  | cons e rest ih =>
    rw [addPendingDeps_cons]
    rcases List.mem_cons.mp hd with rfl | hmem
    · by_cases hall : d ∈ fileNames all
      · exact Or.inl hall
      · refine Or.inr (addPendingDeps_mem all _ rest d ?_)
        by_cases hp : d ∈ pending
        · split
          · exact hp
          · exact List.mem_append_left _ hp
        · have hcond : ¬(((fileNames all).contains d || pending.contains d) = true) := by
            simp [hall, hp]
          rw [if_neg hcond]
          simp
    · exact ih _ hmem

/-- A name occurring among the streamed responses survives batch collection
(first-seen dedup never drops a name entirely). -/
theorem batchCollect_names_of_mem (responses : List ReflFile) (n : String)
    (hne : n ≠ "")
    (h : ∃ r ∈ responses, r.name = n) :
    n ∈ fileNames (batchCollect responses) := by
  suffices hgen : ∀ (out : List ReflFile),
      (n ∈ fileNames out ∨ ∃ r ∈ responses, r.name = n) →
      n ∈ fileNames (responses.foldl
        (fun out f =>
          if f.name != "" && !(fileNames out).contains f.name then out ++ [f] else out)
        out) by
    exact hgen [] (Or.inr h)
  clear h
  induction responses with
  | nil =>
    intro out h
    simpa using h.resolve_right (by simp)
  | cons r rest ih =>
    intro out h
    simp only [List.foldl_cons]
    apply ih
    have hstep : n ∈ fileNames out →
        n ∈ fileNames (if r.name != "" && !(fileNames out).contains r.name
          then out ++ [r] else out) := by
      intro hmem
      split
      · simp only [fileNames, List.map_append]
        exact List.mem_append_left _ hmem
      · exact hmem
    rcases h with h | ⟨r2, hr2, hname⟩
    · exact Or.inl (hstep h)
    · rcases List.mem_cons.mp hr2 with rfl | hr2
      · by_cases hseen : n ∈ fileNames out
        · exact Or.inl (hstep hseen)
        · left
          have hcond : (r2.name != "" && !(fileNames out).contains r2.name) = true := by
            simp only [hname]
            simp [hne, hseen]
          rw [if_pos hcond]
          simp [fileNames, hname]
      · exact Or.inr ⟨r2, hr2, hname⟩

/-- A pending filename the server actually answers appears (by name) in the
collected `file_by_filename` batch. -/
theorem fetchFilenamesBatch_covers (srv : ReflServer) (filenames : List String)
    (d : String) (hd : d ∈ filenames) (hs : serverReturns srv d) :
    d ∈ fileNames (fetchFilenamesBatch srv filenames) := by
  obtain ⟨hne, f, hf, hname⟩ := hs
  apply batchCollect_names_of_mem _ _ hne
  refine ⟨f, ?_, hname⟩
  simp only [List.mem_flatten]
  exact ⟨srv.byFilename d, List.mem_map_of_mem _ (List.mem_filter.mpr ⟨hd, by simpa using hne⟩), hf⟩


/-- Unfolding one step of `integrateBatch`. -/
theorem integrateBatch_cons (all : List ReflFile) (pending : List String)
    (g : ReflFile) (rest : List ReflFile) :
    integrateBatch all pending (g :: rest)
      = integrateBatch (integrateStep (all, pending) g).1
          (integrateStep (all, pending) g).2 rest := by
  simp [integrateBatch]

/-- Fetched files are never removed while integrating a batch. -/
theorem integrateBatch_all_mem (batch : List ReflFile) :
    ∀ (all : List ReflFile) (pending : List String) (f : ReflFile),
      f ∈ all → f ∈ (integrateBatch all pending batch).1 := by
  induction batch with
  | nil => intro all pending f hf; simpa [integrateBatch] using hf
  | cons g rest ih =>
    intro all pending f hf
    rw [integrateBatch_cons]
    apply ih
    unfold integrateStep
    split
    · exact hf
    · exact List.mem_append_left _ hf

/-- Fetched file names are never removed while integrating a batch. -/
theorem integrateBatch_fileNames_mem (batch : List ReflFile)
    (all : List ReflFile) (pending : List String) (x : String)
    (hx : x ∈ fileNames all) : x ∈ fileNames (integrateBatch all pending batch).1 := by
  rcases List.mem_map.mp hx with ⟨f, hf, hname⟩
  exact hname ▸ List.mem_map_of_mem _ (integrateBatch_all_mem batch all pending f hf)

/-- Pending names are never removed while integrating a batch. -/
theorem integrateBatch_pending_mem (batch : List ReflFile) :
    ∀ (all : List ReflFile) (pending : List String) (x : String),
      x ∈ pending → x ∈ (integrateBatch all pending batch).2 := by
  induction batch with
  | nil => intro all pending x hx; simpa [integrateBatch] using hx
  | cons g rest ih =>
    intro all pending x hx
    rw [integrateBatch_cons]
    apply ih
    unfold integrateStep
    split
    · exact hx
    · exact addPendingDeps_mem _ _ _ _ hx

/-- Every batch member's name is present after integrating the batch
(either it was already fetched or the member is appended). -/
theorem integrateBatch_batch_names (batch : List ReflFile) :
    ∀ (all : List ReflFile) (pending : List String) (f : ReflFile),
      f ∈ batch → f.name ∈ fileNames (integrateBatch all pending batch).1 := by
  induction batch with
  | nil => intro all pending f hf; cases hf
  | cons g rest ih =>
    intro all pending f hf
    rw [integrateBatch_cons]
    rcases List.mem_cons.mp hf with rfl | hf
    · by_cases hseen : (fileNames all).contains f.name = true
      · have hseenm : f.name ∈ fileNames all := by simpa using hseen
        have hstep : integrateStep (all, pending) f = (all, pending) := by
          unfold integrateStep
          simp [hseen, hseenm]
        rw [hstep]
        exact integrateBatch_fileNames_mem rest all pending f.name (by simpa using hseen)
      · have hstep : (integrateStep (all, pending) f).1 = all ++ [f] := by
          unfold integrateStep
          simp only [hseen]
          simp
        have : f ∈ (integrateStep (all, pending) f).1 := by
          rw [hstep]; exact List.mem_append_right _ (by simp)
        exact List.mem_map_of_mem _ (integrateBatch_all_mem rest _ _ f this)
    · exact ih _ _ f hf

/-- Every file present after integrating a batch either was fetched before
the batch, or each of its dependencies is afterwards fetched or pending. -/
theorem integrateBatch_closed (batch : List ReflFile) :
    ∀ (all : List ReflFile) (pending : List String) (f : ReflFile),
      f ∈ (integrateBatch all pending batch).1 →
      f ∈ all ∨ ∀ d ∈ f.deps,
        d ∈ fileNames (integrateBatch all pending batch).1
        ∨ d ∈ (integrateBatch all pending batch).2 := by
  induction batch with
  | nil =>
    intro all pending f hf
    exact Or.inl (by simpa [integrateBatch] using hf)
  | cons g rest ih =>
    intro all pending f hf
    rw [integrateBatch_cons] at hf ⊢
    rcases ih _ _ f hf with hstep | hcov
    · by_cases hseen : (fileNames all).contains g.name = true
      · have hseenm : g.name ∈ fileNames all := by simpa using hseen
        have heq : integrateStep (all, pending) g = (all, pending) := by
          unfold integrateStep
          simp [hseen, hseenm]
        rw [heq] at hstep
        exact Or.inl hstep
      · have heq1 : (integrateStep (all, pending) g).1 = all ++ [g] := by
          unfold integrateStep
          simp only [hseen]
          simp
        have heq2 : (integrateStep (all, pending) g).2
            = addPendingDeps (all ++ [g]) pending g.deps := by
          unfold integrateStep
          simp only [hseen]
          simp
        rw [heq1] at hstep
        rcases List.mem_append.mp hstep with hstep | hstep
        · exact Or.inl hstep
        · have hfg : f = g := by simpa using hstep
          subst hfg
          refine Or.inr (fun d hd => ?_)
          rcases addPendingDeps_covers (all ++ [f]) pending f.deps d hd with hleft | hright
          · left
            have : d ∈ fileNames (integrateStep (all, pending) f).1 := by
              rw [heq1]; exact hleft
            exact integrateBatch_fileNames_mem rest _ _ d this
          · right
            have : d ∈ (integrateStep (all, pending) f).2 := by
              rw [heq2]; exact hright
            exact integrateBatch_pending_mem rest _ _ d this
    · exact Or.inr hcov


/-- The seeding fold of `initPending` only grows the pending list. -/
theorem initPendingFold_mem (all : List ReflFile) (l : List ReflFile)
    (p : List String) (x : String) (hx : x ∈ p) :
    x ∈ l.foldl (fun p f => addPendingDeps all p f.deps) p := by
  induction l generalizing p with
  | nil => simpa using hx
  | cons g rest ih =>
    simp only [List.foldl_cons]
    exact ih _ (addPendingDeps_mem all p g.deps x hx)

/-- After seeding, every dependency of every symbol-batch file is either a
fetched file name or pending. -/
theorem initPending_covers (all : List ReflFile) :
    ∀ f ∈ all, ∀ d ∈ f.deps, d ∈ fileNames all ∨ d ∈ initPending all := by
  suffices hgen : ∀ (l : List ReflFile) (p : List String),
      ∀ f ∈ l, ∀ d ∈ f.deps,
        d ∈ fileNames all ∨ d ∈ l.foldl (fun p f => addPendingDeps all p f.deps) p by
    exact hgen all []
  intro l
  induction l with
  | nil => intro p f hf; cases hf
  | cons g rest ih =>
    intro p f hf d hd
    simp only [List.foldl_cons]
    rcases List.mem_cons.mp hf with rfl | hf
    · rcases addPendingDeps_covers all p f.deps d hd with hn | hpd
      · exact Or.inl hn
      · exact Or.inr (initPendingFold_mem all rest _ d hpd)
    · exact ih _ f hf d hd

/-- Soundness of the `while (pending.size > 0)` loop: starting from a state
where every missing dependency of a fetched file is pending, a terminating
run keeps all fetched files and ends dependency-closed with respect to the
files the server returns. -/
theorem closureLoop_sound (srv : ReflServer) :
    ∀ (fuel : Nat) (all : List ReflFile) (pending : List String)
      (files : List ReflFile),
      (∀ f ∈ all, ∀ d ∈ f.deps, serverReturns srv d →
        d ∈ fileNames all ∨ d ∈ pending) →
      closureLoop srv fuel all pending = some files →
      (∀ f ∈ all, f ∈ files)
      ∧ ∀ f ∈ files, ∀ d ∈ f.deps, serverReturns srv d → d ∈ fileNames files := by
  intro fuel
  induction fuel with
  | zero =>
    intro all pending files hinv hrun
    unfold closureLoop at hrun
    by_cases hp : pending.isEmpty = true
    · rw [if_pos hp] at hrun
      obtain rfl : all = files := by simpa using hrun
      refine ⟨fun f hf => hf, fun f hf d hd hsrv => ?_⟩
      rcases hinv f hf d hd hsrv with hn | hpend
      · exact hn
      · rw [List.isEmpty_iff] at hp
        rw [hp] at hpend
        cases hpend
    · rw [if_neg hp] at hrun
      cases hrun
  | succ fuel ih =>
    intro all pending files hinv hrun
    unfold closureLoop at hrun
    by_cases hp : pending.isEmpty = true
    · rw [if_pos hp] at hrun
      obtain rfl : all = files := by simpa using hrun
      refine ⟨fun f hf => hf, fun f hf d hd hsrv => ?_⟩
      rcases hinv f hf d hd hsrv with hn | hpend
      · exact hn
      · rw [List.isEmpty_iff] at hp
        rw [hp] at hpend
        cases hpend
    · rw [if_neg hp] at hrun
      rcases hR : integrateBatch all [] (fetchFilenamesBatch srv pending)
        with ⟨all2, pending2⟩
      rw [hR] at hrun
      have hinv2 : ∀ f ∈ all2, ∀ d ∈ f.deps, serverReturns srv d →
          d ∈ fileNames all2 ∨ d ∈ pending2 := by
        intro f hf d hd hsrv
        have hclosed := integrateBatch_closed (fetchFilenamesBatch srv pending)
          all [] f (by rw [hR]; exact hf)
        rw [hR] at hclosed
        rcases hclosed with hfall | hcov
        · rcases hinv f hfall d hd hsrv with hn | hpnd
          · left
            have := integrateBatch_fileNames_mem (fetchFilenamesBatch srv pending)
              all [] d hn
            rw [hR] at this
            exact this
          · left
            have hbn : d ∈ fileNames (fetchFilenamesBatch srv pending) :=
              fetchFilenamesBatch_covers srv pending d hpnd hsrv
            rcases List.mem_map.mp hbn with ⟨g, hg, hgname⟩
            have := integrateBatch_batch_names (fetchFilenamesBatch srv pending)
              all [] g hg
            rw [hR] at this
            exact hgname ▸ this
        · exact hcov d hd
      obtain ⟨hall2, hclosure⟩ := ih all2 pending2 files hinv2 hrun
      refine ⟨fun f hf => ?_, hclosure⟩
      have := integrateBatch_all_mem (fetchFilenamesBatch srv pending) all [] f hf
      rw [hR] at this
      exact hall2 f this

/-- C5: a terminating run of the dependency-closure fetch retrieves the
files containing the root symbols first and keeps them, and the returned
file set is closed under the dependency relation restricted to files the
server returns: every dependency of every returned file which the server
answers by name is itself among the returned file names. -/
theorem fetchFileDescriptors_closure (srv : ReflServer) (fuel : Nat)
    (symbols : List String) (files : List ReflFile)
    (h : fetchFileDescriptors srv fuel symbols = some files) :
    (∀ f ∈ rootFiles srv symbols, f ∈ files)
    ∧ ∀ f ∈ files, ∀ d ∈ f.deps, serverReturns srv d → d ∈ fileNames files := by
  refine closureLoop_sound srv fuel _ _ files ?_ h
  intro f hf d hd _
  exact initPending_covers _ f hf d hd

/-- A three-file chain: the root symbol's file depends on `a.proto`, which
depends on `b.proto`. -/
def demoServer : ReflServer where
  bySymbol := fun s =>
    if s = "pkg.Root" then [{ name := "root.proto", deps := ["a.proto"] }] else []
  byFilename := fun n =>
    if n = "a.proto" then [{ name := "a.proto", deps := ["b.proto"] }]
    else if n = "b.proto" then [{ name := "b.proto", deps := [] }]
    else []

/-- The closure `fetchFileDescriptors` computes for `demoServer`. -/
def demoFiles : List ReflFile :=
  [{ name := "root.proto", deps := ["a.proto"] },
   { name := "a.proto", deps := ["b.proto"] },
   { name := "b.proto", deps := [] }]

/-- Witness for `fetchFileDescriptors_closure`: the `N = 2` chain resolves to
all `N + 1` files - the run terminates within two rounds, the root file is in
the result, and both transitive dependencies are resolved by name. -/
theorem fetchFileDescriptors_closure_witness :
    ({ name := "root.proto", deps := ["a.proto"] } : ReflFile) ∈ demoFiles
    ∧ "a.proto" ∈ fileNames demoFiles
    ∧ "b.proto" ∈ fileNames demoFiles := by
  have h := fetchFileDescriptors_closure demoServer 2 ["pkg.Root"] demoFiles (by decide)
  refine ⟨h.1 _ (by decide), ?_, ?_⟩
  · exact h.2 { name := "root.proto", deps := ["a.proto"] } (by decide) "a.proto"
      (by decide) ⟨by decide, { name := "a.proto", deps := ["b.proto"] }, by decide, rfl⟩
  · exact h.2 { name := "a.proto", deps := ["b.proto"] } (by decide) "b.proto"
      (by decide) ⟨by decide, { name := "b.proto", deps := [] }, by decide, rfl⟩


/-- A fresh `setAssoc` binding is found by `assocLookup`. -/
theorem assocLookup_setAssoc_self {α : Type} (l : List (String × α)) (k : String)
    (v : α) : assocLookup (setAssoc l k v) k = some v := by
  induction l with
  | nil => simp [setAssoc, assocLookup]
  | cons p rest ih =>
    obtain ⟨k2, v2⟩ := p
    by_cases h : k2 = k
    · subst h
      simp [setAssoc, assocLookup]
    · simp only [setAssoc, if_neg h]
      simpa [assocLookup, List.find?_cons, h] using ih

/-- After any `getTypesRoot` call the address maps to the returned root and
the PGV cache is untouched. -/
theorem getTypesRoot_cached (srv : ReflServer) (st : CacheState) (address : String)
    (names : List String) (root : PbRoot) (st1 : CacheState) (n1 : Nat)
    (h : getTypesRoot srv st address names = (root, st1, n1)) :
    assocLookup st1.rootCache address = some root ∧ st1.pgvCache = st.pgvCache := by
  have hst1 : st1 = (getTypesRoot srv st address names).2.1 := by rw [h]
  have hroot : root = (getTypesRoot srv st address names).1 := by rw [h]
  subst hst1
  subst hroot
  clear h
  unfold getTypesRoot
  split
  next r heq => simp [heq]
  next heq =>
    split
    · simp [assocLookup_setAssoc_self]
    · simp [assocLookup_setAssoc_self]

/-- After any `getPgvRuleIndex` call the address maps to the returned index
and the root cache is untouched. -/
theorem getPgvRuleIndex_cached (deser : List Nat → Option FdpStruct)
    (dec : List Nat → Option PgvRules) (srv : ReflServer) (st : CacheState)
    (address : String) (names : List String) (idx : PgvIndex) (st2 : CacheState)
    (m1 : Nat)
    (h : getPgvRuleIndex deser dec srv st address names = (idx, st2, m1)) :
    assocLookup st2.pgvCache address = some idx ∧ st2.rootCache = st.rootCache := by
  have hst2 : st2 = (getPgvRuleIndex deser dec srv st address names).2.1 := by rw [h]
  have hidx : idx = (getPgvRuleIndex deser dec srv st address names).1 := by rw [h]
  subst hst2
  subst hidx
  clear h
  unfold getPgvRuleIndex
  split
  next i heq => simp [heq]
  next heq => simp [assocLookup_setAssoc_self]

/-- A cache hit returns the stored root unchanged with zero fetches. -/
theorem getTypesRoot_hit (srv : ReflServer) (st : CacheState) (address : String)
    (names : List String) (root : PbRoot)
    (h : assocLookup st.rootCache address = some root) :
    getTypesRoot srv st address names = (root, st, 0) := by
  unfold getTypesRoot
  rw [h]

/-- A cache hit returns the stored index unchanged with zero fetches. -/
theorem getPgvRuleIndex_hit (deser : List Nat → Option FdpStruct)
    (dec : List Nat → Option PgvRules) (srv : ReflServer) (st : CacheState)
    (address : String) (names : List String) (idx : PgvIndex)
    (h : assocLookup st.pgvCache address = some idx) :
    getPgvRuleIndex deser dec srv st address names = (idx, st, 0) := by
  unfold getPgvRuleIndex
  rw [h]

/-- C7: resolving the same root symbol set twice against an unchanged server
returns the very same registry object (hence identical message and field
sets), the second call is served from the address-keyed cache with zero
reflection fetches and leaves the cache state unchanged, and the cached
entry still maps the address to that registry (nothing mutates it). -/
theorem getTypesRoot_idempotent (srv : ReflServer) (st : CacheState)
    (address : String) (names : List String) (root : PbRoot) (st1 : CacheState)
    (n1 : Nat) (h : getTypesRoot srv st address names = (root, st1, n1)) :
    getTypesRoot srv st1 address names = (root, st1, 0)
    ∧ assocLookup st1.rootCache address = some root := by
  obtain ⟨hlook, -⟩ := getTypesRoot_cached srv st address names root st1 n1 h
  exact ⟨getTypesRoot_hit srv st1 address names root hlook, hlook⟩

/-- Witness for `getTypesRoot_idempotent`: a second resolution of
`pkg.Root` against `demoServer` is served from the cache built by the first
call, unchanged, with zero fetches. -/
theorem getTypesRoot_idempotent_witness :
    getTypesRoot demoServer demoSt1 "localhost:50051" ["pkg.Root"]
      = (demoRoot, demoSt1, 0)
    ∧ assocLookup demoSt1.rootCache "localhost:50051" = some demoRoot :=
  getTypesRoot_idempotent demoServer { rootCache := [], pgvCache := [] }
    "localhost:50051" ["pkg.Root"] demoRoot demoSt1 1 (by decide)

/-- C9: both caches are keyed by the server address alone - after a first
`getTypesRoot` and a first `getPgvRuleIndex` for an address, every later
call for that address returns exactly the object built from the first
call's type-name list with zero reflection fetches, whatever (possibly
larger or disjoint) type-name list the later call passes. -/
theorem caches_keyed_by_address_only (deser : List Nat → Option FdpStruct)
    (dec : List Nat → Option PgvRules) (srv : ReflServer) (st : CacheState)
    (address : String) (names1 names2 pnames1 pnames2 : List String)
    (root : PbRoot) (st1 : CacheState) (n1 : Nat) (idx : PgvIndex)
    (st2 : CacheState) (m1 : Nat)
    (h1 : getTypesRoot srv st address names1 = (root, st1, n1))
    (h2 : getPgvRuleIndex deser dec srv st1 address pnames1 = (idx, st2, m1)) :
    getTypesRoot srv st2 address names2 = (root, st2, 0)
    ∧ getPgvRuleIndex deser dec srv st2 address pnames2 = (idx, st2, 0) := by
  obtain ⟨hroot1, -⟩ := getTypesRoot_cached srv st address names1 root st1 n1 h1
  obtain ⟨hpgv2, hrootkeep⟩ :=
    getPgvRuleIndex_cached deser dec srv st1 address pnames1 idx st2 m1 h2
  refine ⟨getTypesRoot_hit srv st2 address names2 root ?_,
    getPgvRuleIndex_hit deser dec srv st2 address pnames2 idx hpgv2⟩
  rw [hrootkeep]
  exact hroot1

/-- Witness for `caches_keyed_by_address_only`: after resolving
`pkg.Root` and its rule index once, calls passing entirely different (and
larger) type-name lists still return the first call's registry and index
with zero fetches. -/
theorem caches_keyed_by_address_only_witness :
    getTypesRoot demoServer demoSt2 "localhost:50051"
        ["other.Type", "pkg.Root", "extra.Name"] = (demoRoot, demoSt2, 0)
    ∧ getPgvRuleIndex (fun _ => none) (fun _ => none) demoServer demoSt2
        "localhost:50051" ["different.T"]
      = (([] : List (String × List (String × PgvRules))), demoSt2, 0) := by
  have hscan0 : rawFileScanGo ([] : List Nat) 0 "" [] = ("", []) := by
    rw [rawFileScanGo]
    simp
  have h2 : getPgvRuleIndex (fun _ => none) (fun _ => none) demoServer demoSt1
      "localhost:50051" ["pkg.Root"]
      = (([] : List (String × List (String × PgvRules))), demoSt2, 1) := by
    simp only [getPgvRuleIndex,
      show assocLookup demoSt1.pgvCache "localhost:50051" = none from by decide,
      buildPgvIndex, extractPgvFromRawFile, hscan0]
    simp [demoSt1, demoSt2, demoServer, demoRoot, fetchSymbolsBatch, batchCollect,
      firstDedup, fileNames, buildIndex, setAssoc, assocLookup, hscan0]
  exact caches_keyed_by_address_only (fun _ => none) (fun _ => none) demoServer
    { rootCache := [], pgvCache := [] } "localhost:50051"
    ["pkg.Root"] ["other.Type", "pkg.Root", "extra.Name"] ["pkg.Root"] ["different.T"]
    demoRoot demoSt1 1 ([] : List (String × List (String × PgvRules))) demoSt2 1
    (by decide) h2


/-- The compiled rewrite chain of the normalization loop agrees with the
spec-side canonicalization. -/
theorem enumRewrite_eq_canonical (table : List (String × Nat)) (v : EnumVal) :
    enumRewrite table v = canonicalEnumValue table v := by
  cases v with
  | num n => rfl
  | str s =>
    simp only [enumRewrite, canonicalEnumValue]
    cases assocLookup table s <;> simp

/-- One unfolding of `fixMessage` with the nested recursion expressed as a
plain map. -/
theorem fixMessage_node (o : Option (List Unit)) (fs : List FieldObj)
    (ns : List MsgObj) :
    fixMessage (.node o fs ns)
      = .node o
          ((if (match o with | none => true | some l => l.isEmpty) then
              fs.map clearOneofIndex
            else fs).map normalizeFieldEnums)
          (ns.map fixMessage) := by
  rw [fixMessage.eq_def]
  simp [List.attach_map_val]

/-- C8: `normalizeDescriptorEnums` applies `fixMessage` to every top-level
message; `fixMessage` recurses into every nested message (so the fix reaches
any depth) and leaves the oneof declarations themselves unchanged; for a
message declaring zero oneof groups every resulting field has its
`oneofIndex` removed, while a message with at least one oneof group keeps
every field's `oneofIndex`; and every field's type and label are rewritten
to the canonical value - a symbolic name in the descriptor enum table
becomes its integer code, a numeric value is unchanged. -/
theorem normalizeDescriptorEnums_spec :
    (∀ file : FileObj,
      (normalizeDescriptorEnums file).messageType = file.messageType.map fixMessage)
    ∧ (∀ m : MsgObj, (fixMessage m).nestedType = m.nestedType.map fixMessage)
    ∧ (∀ m : MsgObj, (fixMessage m).oneofDecl = m.oneofDecl)
    ∧ (∀ m : MsgObj, hasZeroOneofs m = true →
        ∀ f ∈ (fixMessage m).field, f.oneofIndex = none)
    ∧ (∀ m : MsgObj, hasZeroOneofs m = false →
        (fixMessage m).field.map FieldObj.oneofIndex
          = m.field.map FieldObj.oneofIndex)
    ∧ (∀ m : MsgObj,
        (fixMessage m).field.map FieldObj.type
          = m.field.map (fun f => canonicalEnumValue fallbackTypeEnum f.type)
        ∧ (fixMessage m).field.map FieldObj.label
          = m.field.map (fun f => canonicalEnumValue fallbackLabelEnum f.label)) := by
  refine ⟨fun file => rfl, ?_, ?_, ?_, ?_, ?_⟩
  · intro m
    obtain ⟨o, fs, ns⟩ := m
    rw [fixMessage_node]
    rfl
  · intro m
    obtain ⟨o, fs, ns⟩ := m
    rw [fixMessage_node]
    rfl
  · intro m hzero f hf
    obtain ⟨o, fs, ns⟩ := m
    simp only [hasZeroOneofs, MsgObj.oneofDecl] at hzero
    rw [fixMessage_node] at hf
    simp only [MsgObj.field, if_pos hzero, List.map_map] at hf
    rcases List.mem_map.mp hf with ⟨g, hg, rfl⟩
    simp [normalizeFieldEnums, clearOneofIndex, Function.comp]
  · intro m hzero
    obtain ⟨o, fs, ns⟩ := m
    cases o with
    | none => simp [hasZeroOneofs, MsgObj.oneofDecl] at hzero
    | some l =>
      simp only [hasZeroOneofs, MsgObj.oneofDecl] at hzero
      rw [fixMessage_node]
      rw [if_neg (by simp [hzero])]
      simp only [MsgObj.field, List.map_map]
      exact List.map_congr_left (fun f hf => by
        simp [normalizeFieldEnums, Function.comp])
  · intro m
    obtain ⟨o, fs, ns⟩ := m
    rw [fixMessage_node]
    constructor
    · simp only [MsgObj.field, List.map_map]
      split
      · simp only [List.map_map]
        exact List.map_congr_left (fun f hf => by
          simp [normalizeFieldEnums, clearOneofIndex, enumRewrite_eq_canonical,
            Function.comp])
      · exact List.map_congr_left (fun f hf => by
          simp [normalizeFieldEnums, enumRewrite_eq_canonical, Function.comp])
    · simp only [MsgObj.field, List.map_map]
      split
      · simp only [List.map_map]
        exact List.map_congr_left (fun f hf => by
          simp [normalizeFieldEnums, clearOneofIndex, enumRewrite_eq_canonical,
            Function.comp])
      · exact List.map_congr_left (fun f hf => by
          simp [normalizeFieldEnums, enumRewrite_eq_canonical, Function.comp])

/-- Witness for `normalizeDescriptorEnums_spec`: fixing a concrete
zero-oneof message removes the stray `oneofIndex` from its normalized
field. -/
theorem normalizeDescriptorEnums_spec_witness :
    hasZeroOneofs demoMsgNoOneof = true
    ∧ ({ type := EnumVal.num 9, label := EnumVal.num 1, oneofIndex := none }
        : FieldObj).oneofIndex = none := by
  refine ⟨rfl, normalizeDescriptorEnums_spec.2.2.2.1 demoMsgNoOneof rfl _ ?_⟩
  rw [demoMsgNoOneof, fixMessage_node]
  decide


/-- Varint round-trip: decoding an encoded value consumes exactly its bytes. -/
theorem decodeVarintL_encodeVarint (n : Nat) (rest : List Nat) :
    decodeVarintL (encodeVarint n ++ rest) = some (n, rest) := by
  rw [encodeVarint]
  by_cases h : n < 128
  · simp [decodeVarintL, h]
  · have hrec := decodeVarintL_encodeVarint (n / 128) rest
    have hb : ¬(n % 128 + 128 < 128) := by omega
    simp only [if_neg h, List.cons_append, decodeVarintL]
    rw [if_neg hb, hrec]
    show some (n % 128 + 128 - 128 + 128 * (n / 128), rest) = some (n, rest)
    have harith : n % 128 + 128 - 128 + 128 * (n / 128) = n := by omega
    rw [harith]
termination_by n
decreasing_by exact Nat.div_lt_self (by omega) (by omega)

/-- Fixed-width round-trip for values below the width bound. -/
theorem decodeFixed_encodeFixed (w : Nat) :
    ∀ (n : Nat), n < 256 ^ w → ∀ (rest : List Nat),
      decodeFixed w (encodeFixed w n ++ rest) = some (n, rest) := by
  induction w with
  | zero =>
    intro n hn rest
    have h1 : (256 : Nat) ^ 0 = 1 := pow_zero 256
    obtain rfl : n = 0 := by omega
    rfl
  | succ w ih =>
    intro n hn rest
    have hdiv : n / 256 < 256 ^ w := by
      apply Nat.div_lt_of_lt_mul
      rw [pow_succ] at hn
      omega
    have hrw := ih (n / 256) hdiv rest
    simp only [encodeFixed, List.cons_append, decodeFixed, List.append_eq, hrw]
    show some (n % 256 + 256 * (n / 256), rest) = some (n, rest)
    have harith : n % 256 + 256 * (n / 256) = n := by omega
    rw [harith]

/-- UTF-8 round-trip for one character: the decoder consumes exactly the
encoder's bytes and recovers the character. -/
theorem utf8DecodeChars_encodeChar (c : Char) (rest : List Nat) :
    utf8DecodeChars (utf8EncodeChar c ++ rest) = c :: utf8DecodeChars rest := by
  have hval : c.toNat < 55296 ∨ 57343 < c.toNat ∧ c.toNat < 1114112 := c.valid
  have hofnat := Char.ofNat_toNat c
  rw [utf8EncodeChar]
  by_cases h1 : c.toNat < 128
  · simp only [if_pos h1, List.cons_append, List.nil_append, utf8DecodeChars]
    rw [hofnat]
  · by_cases h2 : c.toNat < 2048
    · simp only [if_neg h1, if_pos h2, List.cons_append, List.nil_append,
        utf8DecodeChars]
      rw [if_neg (by omega), if_neg (by omega), if_pos (by omega)]
      have hcont : isContByte (128 + c.toNat % 64) = true := by
        simp only [isContByte, Bool.and_eq_true, decide_eq_true_eq]
        omega
      simp only [utf8DecodeCont2, hcont, if_pos]
      have harg : (192 + c.toNat / 64 - 192) * 64 + (128 + c.toNat % 64 - 128)
          = c.toNat := by omega
      rw [harg, hofnat]
    · by_cases h3 : c.toNat < 65536
      · simp only [if_neg h1, if_neg h2, if_pos h3, List.cons_append,
          List.nil_append, utf8DecodeChars]
        rw [if_neg (by omega), if_neg (by omega), if_neg (by omega),
          if_pos (by omega)]
        have hcont1 : isContByte (128 + c.toNat / 64 % 64) = true := by
          simp only [isContByte, Bool.and_eq_true, decide_eq_true_eq]
          omega
        have hcont2 : isContByte (128 + c.toNat % 64) = true := by
          simp only [isContByte, Bool.and_eq_true, decide_eq_true_eq]
          omega
        simp only [utf8DecodeCont3, hcont1, hcont2, Bool.and_self, if_pos]
        have harg : (224 + c.toNat / 4096 - 224) * 4096
            + (128 + c.toNat / 64 % 64 - 128) * 64 + (128 + c.toNat % 64 - 128)
            = c.toNat := by omega
        rw [harg, hofnat]
      · simp only [if_neg h1, if_neg h2, if_neg h3, List.cons_append,
          List.nil_append, utf8DecodeChars]
        rw [if_neg (by omega), if_neg (by omega), if_neg (by omega),
          if_neg (by omega)]
        have hcont1 : isContByte (128 + c.toNat / 4096 % 64) = true := by
          simp only [isContByte, Bool.and_eq_true, decide_eq_true_eq]
          omega
        have hcont2 : isContByte (128 + c.toNat / 64 % 64) = true := by
          simp only [isContByte, Bool.and_eq_true, decide_eq_true_eq]
          omega
        have hcont3 : isContByte (128 + c.toNat % 64) = true := by
          simp only [isContByte, Bool.and_eq_true, decide_eq_true_eq]
          omega
        simp only [utf8DecodeCont4, hcont1, hcont2, hcont3, Bool.and_self, if_pos]
        have harg : (240 + c.toNat / 262144 - 240) * 262144
            + (128 + c.toNat / 4096 % 64 - 128) * 4096
            + (128 + c.toNat / 64 % 64 - 128) * 64 + (128 + c.toNat % 64 - 128)
            = c.toNat := by omega
        rw [harg, hofnat]

/-- UTF-8 round-trip for a whole character list. -/
theorem utf8DecodeChars_encodeList (s : List Char) :
    utf8DecodeChars ((s.map utf8EncodeChar).flatten) = s := by
  induction s with
  | nil =>
    simp only [List.map_nil, List.flatten_nil]
    rw [utf8DecodeChars]
  | cons c cs ih =>
    simp only [List.map_cons, List.flatten_cons]
    rw [utf8DecodeChars_encodeChar c _, ih]

/-- UTF-8 round-trip for a string. -/
theorem utf8Decode_utf8Encode (s : String) : utf8Decode (utf8Encode s) = s := by
  rw [utf8Encode, utf8Decode, utf8DecodeChars_encodeList]

/-- Reading back the 64-bit two's-complement image of an int32-range value. -/
theorem fromWire32_toWire64 (v : Int) (h1 : -(2 ^ 31) ≤ v) (h2 : v < 2 ^ 31) :
    fromWire32 (toWire64 v) = v := by
  have e31 : ((2 : Int) ^ 31) = 2147483648 := by norm_num
  have e64 : ((2 : Int) ^ 64) = 18446744073709551616 := by norm_num
  have n31 : ((2 : Nat) ^ 31) = 2147483648 := by norm_num
  have n32 : ((2 : Nat) ^ 32) = 4294967296 := by norm_num
  rw [e31] at h1 h2
  simp only [fromWire32, toWire64, e64, n31, n32]
  split <;> omega

/-- Reading back the 64-bit two's-complement image of an int64-range value. -/
theorem fromWire64_toWire64 (v : Int) (h1 : -(2 ^ 63) ≤ v) (h2 : v < 2 ^ 63) :
    fromWire64 (toWire64 v) = v := by
  have e63 : ((2 : Int) ^ 63) = 9223372036854775808 := by norm_num
  have e64 : ((2 : Int) ^ 64) = 18446744073709551616 := by norm_num
  have m63 : ((2 : Nat) ^ 63) = 9223372036854775808 := by norm_num
  have m64 : ((2 : Nat) ^ 64) = 18446744073709551616 := by norm_num
  rw [e63] at h1 h2
  simp only [fromWire64, toWire64, e64, m63, m64]
  split <;> omega

/-- Payload round-trip: a value matching its declared kind decodes back from
its own payload, leaving the trailing bytes untouched. -/
theorem decodePayload_encodePayload (k : ScalarKind) (v : CValue)
    (hk : kindMatches k v = true) (rest : List Nat) :
    decodePayload k (encodePayload v ++ rest) = some (v, rest) := by
  cases k with
  | string =>
    cases v
    case str s =>
      simp only [encodePayload, decodePayload, List.append_assoc,
        decodeVarintL_encodeVarint]
      rw [if_pos (by simp), List.take_left, List.drop_left, utf8Decode_utf8Encode]
    all_goals exact Bool.noConfusion hk
  | bytes =>
    cases v
    case bytes bs =>
      simp only [encodePayload, decodePayload, List.append_assoc,
        decodeVarintL_encodeVarint]
      rw [if_pos (by simp), List.take_left, List.drop_left]
    all_goals exact Bool.noConfusion hk
  | bool =>
    cases v
    case boolean b =>
      cases b <;>
        simp [encodePayload, decodePayload, decodeVarintL_encodeVarint]
    all_goals exact Bool.noConfusion hk
  | uint32 =>
    cases v
    case u32 n =>
      simp only [kindMatches, decide_eq_true_eq] at hk
      norm_num at hk
      simp [encodePayload, decodePayload, decodeVarintL_encodeVarint,
        Nat.mod_eq_of_lt hk]
    all_goals exact Bool.noConfusion hk
  | uint64 =>
    cases v
    case u64 n =>
      simp only [kindMatches, decide_eq_true_eq] at hk
      norm_num at hk
      simp [encodePayload, decodePayload, decodeVarintL_encodeVarint,
        Nat.mod_eq_of_lt hk]
    all_goals exact Bool.noConfusion hk
  | int32 =>
    cases v
    case i32 n =>
      simp only [kindMatches, decide_eq_true_eq] at hk
      simp [encodePayload, decodePayload, decodeVarintL_encodeVarint,
        fromWire32_toWire64 n hk.1 hk.2]
    all_goals exact Bool.noConfusion hk
  | int64 =>
    cases v
    case i64 n =>
      simp only [kindMatches, decide_eq_true_eq] at hk
      simp [encodePayload, decodePayload, decodeVarintL_encodeVarint,
        fromWire64_toWire64 n hk.1 hk.2]
    all_goals exact Bool.noConfusion hk
  | enum =>
    cases v
    case enum n =>
      simp only [kindMatches, decide_eq_true_eq] at hk
      simp [encodePayload, decodePayload, decodeVarintL_encodeVarint,
        fromWire32_toWire64 n hk.1 hk.2]
    all_goals exact Bool.noConfusion hk
  | double =>
    cases v
    case doubleBits n =>
      simp only [kindMatches, decide_eq_true_eq] at hk
      have hn : n < 256 ^ 8 := by norm_num at hk ⊢; omega
      simp [encodePayload, decodePayload, decodeFixed_encodeFixed 8 n hn]
    all_goals exact Bool.noConfusion hk
  | float =>
    cases v
    case floatBits n =>
      simp only [kindMatches, decide_eq_true_eq] at hk
      have hn : n < 256 ^ 4 := by norm_num at hk ⊢; omega
      simp [encodePayload, decodePayload, decodeFixed_encodeFixed 4 n hn]
    all_goals exact Bool.noConfusion hk


/-! ### Codec: message-level round-trip machinery (C2, C3, C6) -/

/- A varint encoding always has at least one byte. -/
theorem encodeVarint_ne_nil (n : Nat) : encodeVarint n ≠ [] := by
  rw [encodeVarint]
  split <;> simp

theorem assocFind_cons_self (p : String × CValue) (ps : List (String × CValue)) :
    assocFind (p :: ps) p.1 = some p.2 := by
  simp [assocFind, List.find?]

theorem assocFind_cons_ne (p : String × CValue) (ps : List (String × CValue))
    (name : String) (h : p.1 ≠ name) :
    assocFind (p :: ps) name = assocFind ps name := by
  simp [assocFind, List.find?, h]

/- Fields whose names all differ from the head entry encode the same against
the tail. -/
theorem encodeFieldsList_irrel (fs : List CField) (p : String × CValue)
    (ps : List (String × CValue)) (h : ∀ f ∈ fs, f.name ≠ p.1) :
    encodeFieldsList fs (p :: ps) = encodeFieldsList fs ps := by
  unfold encodeFieldsList
  congr 1
  apply List.map_congr_left
  intro f hf
  rw [assocFind_cons_ne p ps f.name (fun e => h f hf e.symm)]

/- A canonical object has exactly one entry per field, in order. -/
theorem validForGo_length (fs : List CField) (vs : List (String × CValue)) :
    validForGo fs vs = true → fs.length = vs.length := by
  induction fs generalizing vs with
  | nil =>
    cases vs with
    | nil => intro h; rfl
    | cons p ps => intro hv; simp [validForGo] at hv
  | cons f fs ih =>
    cases vs with
    | nil => intro hv; simp [validForGo] at hv
    | cons p ps =>
      intro hv
      simp only [validForGo, Bool.and_eq_true] at hv
      simp [ih ps hv.2]

/- Every entry of a canonical object is named after some field of matching
kind. -/
theorem validForGo_mem (fs : List CField) (vs : List (String × CValue))
    (hv : validForGo fs vs = true) :
    ∀ p ∈ vs, ∃ f ∈ fs, p.1 = f.name ∧ kindMatches f.kind p.2 = true := by
  induction fs generalizing vs with
  | nil =>
    cases vs with
    | nil => intro p hp; cases hp
    | cons p ps => simp [validForGo] at hv
  | cons f fs ih =>
    cases vs with
    | nil => simp [validForGo] at hv
    | cons p ps =>
      simp only [validForGo, Bool.and_eq_true, decide_eq_true_eq] at hv
      intro q hq
      cases hq with
      | head => exact ⟨f, List.mem_cons_self f fs, hv.1.1, hv.1.2⟩
      | tail _ hq2 =>
        obtain ⟨g, hg, h1, h2⟩ := ih ps hv.2 q hq2
        exact ⟨g, List.mem_cons_of_mem f hg, h1, h2⟩

/- Zipping the field list with a canonical object pairs each field with its
own entry. -/
theorem validForGo_zip (fs : List CField) (vs : List (String × CValue))
    (hv : validForGo fs vs = true) :
    ∀ q ∈ fs.zip vs, q.1 ∈ fs ∧ q.2.1 = q.1.name ∧
      kindMatches q.1.kind q.2.2 = true := by
  induction fs generalizing vs with
  | nil => intro q hq; simp at hq
  | cons f fs ih =>
    cases vs with
    | nil => simp [validForGo] at hv
    | cons p ps =>
      simp only [validForGo, Bool.and_eq_true, decide_eq_true_eq] at hv
      intro q hq
      rw [List.zip_cons_cons] at hq
      cases hq with
      | head => exact ⟨List.mem_cons_self f fs, hv.1.1, hv.1.2⟩
      | tail _ hq2 =>
        obtain ⟨h1, h2, h3⟩ := ih ps hv.2 q hq2
        exact ⟨List.mem_cons_of_mem f h1, h2, h3⟩

/- Distinct names make the name an injective key on the field list. -/
theorem fieldName_inj (fs : List CField) :
    (fs.map CField.name).Nodup →
    ∀ f ∈ fs, ∀ g ∈ fs, f.name = g.name → f = g := by
  induction fs with
  | nil => intro _ f hf; cases hf
  | cons a l ih =>
    intro hnd f hf g hg h
    simp only [List.map_cons, List.nodup_cons] at hnd
    cases hf with
    | head =>
      cases hg with
      | head => rfl
      | tail _ hg2 => exact absurd (List.mem_map.mpr ⟨g, hg2, h.symm⟩) hnd.1
    | tail _ hf2 =>
      cases hg with
      | head => exact absurd (List.mem_map.mpr ⟨f, hf2, h⟩) hnd.1
      | tail _ hg2 => exact ih hnd.2 f hf2 g hg2 h

/- With distinct numbers, searching the field list by a field's own number
finds exactly that field. -/
theorem find_number_self (fs : List CField) (hnd : (fs.map CField.number).Nodup)
    (f : CField) (hf : f ∈ fs) :
    fs.find? (fun g => g.number = f.number) = some f := by
  induction fs with
  | nil => cases hf
  | cons a l ih =>
    simp only [List.map_cons, List.nodup_cons] at hnd
    cases hf with
    | head => exact List.find?_cons_of_pos l (by simp)
    | tail _ hf2 =>
      have hne : a.number ≠ f.number :=
        fun e => hnd.1 (List.mem_map.mpr ⟨f, hf2, e.symm⟩)
      rw [List.find?_cons_of_neg l (by simp [hne])]
      exact ih hnd.2 hf2


/- `Type.verify` passes exactly when every key names a field and every value
is coercible to its field's kind. -/
theorem verify_eq_none_iff (T : CType) (value : List (String × CValue)) :
    verify T value = none ↔
      (∀ p ∈ value, ∃ f ∈ T.fields, f.name = p.1) ∧
      (∀ p ∈ value, ∀ f, T.fields.find? (fun g => g.name = p.1) = some f →
        kindMatches f.kind p.2 = true) := by
  unfold verify
  constructor
  · intro h
    cases h1 : value.find?
        (fun p => (T.fields.find? (fun f => f.name = p.1)).isNone) with
    | some p => rw [h1] at h; exact Option.noConfusion h
    | none =>
      rw [h1] at h
      cases h2 : value.find? (fun p =>
          match T.fields.find? (fun f => f.name = p.1) with
          | some f => !kindMatches f.kind p.2
          | none => false) with
      | some p => rw [h2] at h; exact Option.noConfusion h
      | none =>
        constructor
        · intro p hp
          have hnp := List.find?_eq_none.mp h1 p hp
          simp only [Bool.not_eq_true, Option.isNone_eq_false_iff,
            Option.isSome_iff_exists] at hnp
          obtain ⟨f, hf⟩ := hnp
          refine ⟨f, List.mem_of_find?_eq_some hf, ?_⟩
          have := List.find?_some hf
          simpa using this
        · intro p hp f hf
          have hnp := List.find?_eq_none.mp h2 p hp
          rw [hf] at hnp
          simpa using hnp
  · intro h
    have h1 : value.find?
        (fun p => (T.fields.find? (fun f => f.name = p.1)).isNone) = none := by
      rw [List.find?_eq_none]
      intro p hp
      obtain ⟨f, hfm, hfn⟩ := h.1 p hp
      have hs : (T.fields.find? (fun g => g.name = p.1)).isSome := by
        rw [List.find?_isSome]
        exact ⟨f, hfm, by simp [hfn]⟩
      simp only [Bool.not_eq_true, Option.isNone_eq_false_iff]
      exact hs
    have h2 : value.find? (fun p =>
        match T.fields.find? (fun f => f.name = p.1) with
        | some f => !kindMatches f.kind p.2
        | none => false) = none := by
      rw [List.find?_eq_none]
      intro p hp
      cases hfind : T.fields.find? (fun g => g.name = p.1) with
      | none => simp
      | some f0 => simp [h.2 p hp f0 hfind]
    rw [h1, h2]

/- A canonical object passes `Type.verify`. -/
theorem verify_of_valid (T : CType) (M : List (String × CValue))
    (hnames : (T.fields.map CField.name).Nodup)
    (hM : validFor T M = true) :
    verify T M = none := by
  rw [verify_eq_none_iff]
  have hmem := validForGo_mem T.fields M hM
  constructor
  · intro p hp
    obtain ⟨f, hf, hname, _⟩ := hmem p hp
    exact ⟨f, hf, hname.symm⟩
  · intro p hp f0 hf0
    obtain ⟨f, hf, hname, hkind⟩ := hmem p hp
    have hf0mem : f0 ∈ T.fields := List.mem_of_find?_eq_some hf0
    have hf0name : f0.name = p.1 := by
      have := List.find?_some hf0
      simpa using this
    have : f0 = f := fieldName_inj T.fields hnames f0 hf0mem f hf
      (by rw [hf0name, hname])
    subst this
    exact hkind

/- `fromObject` then `toObject({defaults: true})` reproduces a canonical
object verbatim. -/
theorem fromObject_of_valid (T : CType) (M : List (String × CValue))
    (hnames : (T.fields.map CField.name).Nodup)
    (hM : validFor T M = true) :
    fromObject T M = M := by
  unfold fromObject
  have hgo : ∀ (fs : List CField) (vs : List (String × CValue)),
      validForGo fs vs = true → (fs.map CField.name).Nodup →
      fs.map (fun f => (f.name, (assocFind vs f.name).getD (defaultValue f.kind)))
        = vs := by
    intro fs
    induction fs with
    | nil =>
      intro vs hv _
      cases vs with
      | nil => rfl
      | cons p ps => simp [validForGo] at hv
    | cons f fs ih =>
      intro vs hv hnd
      cases vs with
      | nil => simp [validForGo] at hv
      | cons p ps =>
        simp only [validForGo, Bool.and_eq_true, decide_eq_true_eq] at hv
        simp only [List.map_cons, List.nodup_cons] at hnd
        have hfind : assocFind (p :: ps) f.name = some p.2 := by
          rw [← hv.1.1]
          exact assocFind_cons_self p ps
        have hmap : fs.map (fun g =>
              (g.name, (assocFind (p :: ps) g.name).getD (defaultValue g.kind)))
            = fs.map (fun g =>
              (g.name, (assocFind ps g.name).getD (defaultValue g.kind))) := by
          apply List.map_congr_left
          intro g hg
          rw [assocFind_cons_ne p ps g.name (by
            rw [hv.1.1]
            intro he
            exact hnd.1 (List.mem_map.mpr ⟨g, hg, he.symm⟩))]
        simp only [List.map_cons]
        rw [hfind, Option.getD_some, hmap, ih ps hv.2 hnd.2, ← hv.1.1]
  exact hgo T.fields M hM hnames


/- Encoding a canonical object is the concatenation of per-field chunks in
declaration order. -/
theorem encodeFieldsList_aligned (fs : List CField) (vs : List (String × CValue))
    (hv : validForGo fs vs = true) (hnd : (fs.map CField.name).Nodup) :
    encodeFieldsList fs vs
      = ((fs.zip vs).map (fun q => encodeField q.1 q.2.2)).flatten := by
  induction fs generalizing vs with
  | nil =>
    cases vs with
    | nil => rfl
    | cons p ps => simp [validForGo] at hv
  | cons f fs ih =>
    cases vs with
    | nil => simp [validForGo] at hv
    | cons p ps =>
      simp only [validForGo, Bool.and_eq_true, decide_eq_true_eq] at hv
      simp only [List.map_cons, List.nodup_cons] at hnd
      have hfind : assocFind (p :: ps) f.name = some p.2 := by
        rw [← hv.1.1]
        exact assocFind_cons_self p ps
      simp only [encodeFieldsList, List.map_cons, List.flatten_cons, hfind,
        List.zip_cons_cons]
      congr 1
      show encodeFieldsList fs (p :: ps) = _
      rw [encodeFieldsList_irrel fs p ps (by
        intro g hg he
        exact hnd.1 (List.mem_map.mpr ⟨g, hg, by rw [he, hv.1.1]⟩))]
      exact ih ps hv.2 hnd.2

/- Unfolding the decode loop one step on a nonempty buffer. -/
theorem decodeFieldsGo_step (T : CType) (m : Nat) (bs : List Nat)
    (acc : List (Nat × CValue)) (hbs : bs ≠ []) :
    decodeFieldsGo T (m + 1) bs acc =
      match decodeVarintL bs with
      | none => none
      | some (tag, rest) =>
        match T.fields.find? (fun f => f.number = tag / 8) with
        | some f =>
          if wireTypeOf f.kind = tag % 8 then
            match decodePayload f.kind rest with
            | some (v, rest2) =>
              decodeFieldsGo T m rest2 (setNatAssoc acc (tag / 8) v)
            | none => none
          else
            match skipWire (tag % 8) rest with
            | some rest2 => decodeFieldsGo T m rest2 acc
            | none => none
        | none =>
          match skipWire (tag % 8) rest with
          | some rest2 => decodeFieldsGo T m rest2 acc
          | none => none := by
  obtain ⟨b, bs2, rfl⟩ := List.exists_cons_of_ne_nil hbs
  rfl

/- The wire type fits in the low three tag bits. -/
theorem wireTypeOf_lt (k : ScalarKind) : wireTypeOf k < 8 := by
  cases k <;> simp [wireTypeOf]

/- Decoding a concatenation of well-formed field chunks records each
non-default value under its field number, in order. -/
theorem decodeFieldsGo_chunks (T : CType) (l : List (CField × String × CValue)) :
    ∀ (fuel : Nat) (acc : List (Nat × CValue)),
    (∀ q ∈ l, kindMatches q.1.kind q.2.2 = true) →
    (∀ q ∈ l, T.fields.find? (fun g => g.number = q.1.number) = some q.1) →
    ((l.map (fun q => encodeField q.1 q.2.2)).flatten).length ≤ fuel →
    decodeFieldsGo T fuel ((l.map (fun q => encodeField q.1 q.2.2)).flatten) acc
      = some (l.foldl (fun a q =>
          if isDefault q.2.2 then a else setNatAssoc a q.1.number q.2.2) acc) := by
  induction l with
  | nil =>
    intro fuel acc _ _ _
    simp only [List.map_nil, List.flatten_nil, List.foldl_nil]
    cases fuel <;> rfl
  | cons q l ih =>
    intro fuel acc hkind hfind hlen
    obtain ⟨f, nm, v⟩ := q
    by_cases hdef : isDefault v = true
    · simp only [List.map_cons, List.flatten_cons, encodeField, hdef, if_true,
        List.nil_append, List.foldl_cons]
      exact ih fuel acc (fun r hr => hkind r (List.mem_cons_of_mem _ hr))
        (fun r hr => hfind r (List.mem_cons_of_mem _ hr))
        (by simpa [encodeField, hdef] using hlen)
    · have hkv : kindMatches f.kind v = true :=
        hkind (f, nm, v) (List.mem_cons_self _ _)
      have hfv : T.fields.find? (fun g => g.number = f.number) = some f :=
        hfind (f, nm, v) (List.mem_cons_self _ _)
      have hwt : wireTypeOf f.kind < 8 := wireTypeOf_lt f.kind
      have hflat : ((((f, nm, v) :: l).map (fun q => encodeField q.1 q.2.2)).flatten)
          = encodeVarint (f.number * 8 + wireTypeOf f.kind)
            ++ (encodePayload v
              ++ ((l.map (fun q => encodeField q.1 q.2.2)).flatten)) := by
        simp [encodeField, hdef, List.append_assoc]
      have hv1 : 0 < (encodeVarint (f.number * 8 + wireTypeOf f.kind)).length :=
        List.length_pos.mpr (encodeVarint_ne_nil _)
      cases fuel with
      | zero =>
        rw [hflat] at hlen
        simp only [List.length_append, Nat.le_zero] at hlen
        omega
      | succ m =>
        rw [hflat]
        rw [decodeFieldsGo_step T m _ acc (by
          intro hcontra
          have := congrArg List.length hcontra
          simp only [List.length_append, List.length_nil] at this
          omega)]
        rw [decodeVarintL_encodeVarint]
        have hdiv : (f.number * 8 + wireTypeOf f.kind) / 8 = f.number := by omega
        have hmod : (f.number * 8 + wireTypeOf f.kind) % 8 = wireTypeOf f.kind := by
          omega
        simp only [hdiv, hmod, hfv, if_pos rfl,
          decodePayload_encodePayload f.kind v hkv]
        rw [ih m (setNatAssoc acc f.number v)
          (fun r hr => hkind r (List.mem_cons_of_mem _ hr))
          (fun r hr => hfind r (List.mem_cons_of_mem _ hr))
          (by
            rw [hflat] at hlen
            simp only [List.length_append] at hlen ⊢
            omega)]
        simp [hdef]

/- Writing then reading the same field number. -/
theorem lookupNatAssoc_set_self (m : List (Nat × CValue)) (n : Nat) (v : CValue) :
    lookupNatAssoc (setNatAssoc m n v) n = some v := by
  induction m with
  | nil => simp [setNatAssoc, lookupNatAssoc, List.find?]
  | cons q m ih =>
    obtain ⟨n2, v2⟩ := q
    by_cases h : n2 = n
    · subst h
      simp [setNatAssoc, lookupNatAssoc, List.find?]
    · simp only [setNatAssoc, if_neg h]
      simpa [lookupNatAssoc, List.find?, h] using ih

/- Writing one field number leaves every other number's read unchanged. -/
theorem lookupNatAssoc_set_other (m : List (Nat × CValue)) (n n2 : Nat)
    (v : CValue) (h : n2 ≠ n) :
    lookupNatAssoc (setNatAssoc m n2 v) n = lookupNatAssoc m n := by
  induction m with
  | nil => simp [setNatAssoc, lookupNatAssoc, List.find?, h]
  | cons q m ih =>
    obtain ⟨a, b⟩ := q
    by_cases ha : a = n2
    · subst ha
      simp [setNatAssoc, lookupNatAssoc, List.find?, h]
    · simp only [setNatAssoc, if_neg ha]
      by_cases han : a = n
      · subst han
        simp [lookupNatAssoc, List.find?]
      · simpa [lookupNatAssoc, List.find?, han] using ih


/- The decode fold never touches numbers that belong to none of its chunks. -/
theorem foldStep_lookup_unchanged (l : List (CField × String × CValue)) :
    ∀ (acc : List (Nat × CValue)) (n : Nat),
    (∀ q ∈ l, q.1.number ≠ n) →
    lookupNatAssoc (l.foldl (fun a q =>
        if isDefault q.2.2 then a else setNatAssoc a q.1.number q.2.2) acc) n
      = lookupNatAssoc acc n := by
  induction l with
  | nil => intro acc n _; rfl
  | cons q l ih =>
    intro acc n hne
    rw [List.foldl_cons]
    rw [ih _ n (fun r hr => hne r (List.mem_cons_of_mem _ hr))]
    by_cases hd : isDefault q.2.2 = true
    · simp [hd]
    · simp [hd, lookupNatAssoc_set_other acc n q.1.number q.2.2
        (hne q (List.mem_cons_self q l))]

/- After the decode fold, each chunk's number reads back its value when it
is not the default, and reads nothing new when it is. -/
theorem foldStep_lookup_mem (l : List (CField × String × CValue)) :
    ∀ (acc : List (Nat × CValue)) (q : CField × String × CValue),
    q ∈ l →
    (l.map (fun r => r.1.number)).Nodup →
    lookupNatAssoc (l.foldl (fun a r =>
        if isDefault r.2.2 then a else setNatAssoc a r.1.number r.2.2) acc)
        q.1.number
      = if isDefault q.2.2 then lookupNatAssoc acc q.1.number else some q.2.2 := by
  induction l with
  | nil => intro acc q hq; cases hq
  | cons r l ih =>
    intro acc q hq hnd
    simp only [List.map_cons, List.nodup_cons] at hnd
    rw [List.foldl_cons]
    rcases List.mem_cons.mp hq with rfl | hq2
    · rw [foldStep_lookup_unchanged l _ q.1.number
        (fun s hs he => hnd.1 (List.mem_map.mpr ⟨s, hs, he⟩))]
      by_cases hd : isDefault q.2.2 = true
      · simp [hd]
      · simp [hd, lookupNatAssoc_set_self acc q.1.number q.2.2]
    · rw [ih _ q hq2 hnd.2]
      have hne : r.1.number ≠ q.1.number :=
        fun e => hnd.1 (List.mem_map.mpr ⟨q, hq2, e.symm⟩)
      by_cases hd : isDefault q.2.2 = true
      · rw [if_pos hd, if_pos hd]
        by_cases hrd : isDefault r.2.2 = true
        · simp [hrd]
        · simp [hrd, lookupNatAssoc_set_other acc q.1.number r.1.number r.2.2 hne]
      · rw [if_neg hd, if_neg hd]

/- A default value of the right kind is the kind's default. -/
theorem default_of_isDefault (k : ScalarKind) (v : CValue)
    (hk : kindMatches k v = true) (hd : isDefault v = true) :
    defaultValue k = v := by
  cases k <;> cases v <;>
    simp_all [kindMatches, isDefault, defaultValue, List.isEmpty_iff]

/- Materializing with defaults from a map that stores exactly the
non-default entries of a canonical object reproduces the object. -/
theorem toObject_eq_of_lookup (fs : List CField) :
    ∀ (vs : List (String × CValue)) (m : List (Nat × CValue)),
    validForGo fs vs = true →
    (∀ q ∈ fs.zip vs, lookupNatAssoc m q.1.number
        = if isDefault q.2.2 then none else some q.2.2) →
    fs.map (fun f => (f.name, (lookupNatAssoc m f.number).getD (defaultValue f.kind)))
      = vs := by
  induction fs with
  | nil =>
    intro vs m hv _
    cases vs with
    | nil => rfl
    | cons p ps => simp [validForGo] at hv
  | cons f fs ih =>
    intro vs m hv hl
    cases vs with
    | nil => simp [validForGo] at hv
    | cons p ps =>
      simp only [validForGo, Bool.and_eq_true, decide_eq_true_eq] at hv
      simp only [List.map_cons]
      have hhead := hl (f, p) (by
        rw [List.zip_cons_cons]
        exact List.mem_cons_self _ _)
      rw [ih ps m hv.2 (fun q hq => hl q (by
        rw [List.zip_cons_cons]
        exact List.mem_cons_of_mem _ hq))]
      congr 1
      by_cases hd : isDefault p.2 = true
      · rw [show lookupNatAssoc m f.number = none from by simpa [hd] using hhead]
        rw [Option.getD_none, default_of_isDefault f.kind p.2 hv.1.2 hd, ← hv.1.1]
      · rw [show lookupNatAssoc m f.number = some p.2 from by
          simpa [hd] using hhead]
        rw [Option.getD_some, ← hv.1.1]

/- Decoding the encoding of a canonical object gives the object back. -/
theorem decodeMessage_encodeMessage (T : CType) (M : List (String × CValue))
    (hnames : (T.fields.map CField.name).Nodup)
    (hnums : (T.fields.map CField.number).Nodup)
    (hM : validFor T M = true) :
    decodeMessage T (encodeMessage T M) = some M := by
  unfold decodeMessage encodeMessage
  rw [encodeFieldsList_aligned T.fields M hM hnames]
  have hzip := validForGo_zip T.fields M hM
  have hfst : (T.fields.zip M).map Prod.fst = T.fields :=
    List.map_fst_zip T.fields M (le_of_eq (validForGo_length T.fields M hM))
  have hndz : ((T.fields.zip M).map (fun q => q.1.number)).Nodup := by
    have hcomp : (T.fields.zip M).map (fun q => q.1.number)
        = ((T.fields.zip M).map Prod.fst).map CField.number := by
      rw [List.map_map]
      rfl
    rw [hcomp, hfst]
    exact hnums
  rw [decodeFieldsGo_chunks T (T.fields.zip M) _ []
    (fun q hq => (hzip q hq).2.2)
    (fun q hq => find_number_self T.fields hnums q.1 (hzip q hq).1)
    (le_refl _)]
  simp only [Option.map_some']
  refine congrArg some ?_
  unfold toObject
  refine toObject_eq_of_lookup T.fields M _ hM ?_
  intro q hq
  rw [foldStep_lookup_mem (T.fields.zip M) [] q hq hndz]
  by_cases hd : isDefault q.2.2 = true
  · simp [hd, lookupNatAssoc, List.find?]
  · simp [hd]


/- Stripping the prefix from a well-formed URL leaves the bare name. -/
theorem stripTypePrefix_prepend (fqtn : String) :
    stripTypePrefix ("type.googleapis.com/" ++ fqtn) = fqtn := by
  have hdata : ("type.googleapis.com/" ++ fqtn).data
      = "type.googleapis.com/".data ++ fqtn.data := String.data_append _ _
  have hp : "type.googleapis.com/".data.isPrefixOf
      ("type.googleapis.com/" ++ fqtn).data = true := by
    rw [hdata, List.isPrefixOf_iff_prefix]
    exact List.prefix_append _ _
  have h20 : (20 : Nat) = ("type.googleapis.com/".data).length := by rfl
  rw [stripTypePrefix, if_pos hp, hdata, h20, List.drop_left]

/- A well-formed type URL is never the empty string. -/
theorem typeUrl_prepend_ne_empty (fqtn : String) :
    "type.googleapis.com/" ++ fqtn ≠ "" := by
  intro h
  have hlen := congrArg String.length h
  have h20 : ("type.googleapis.com/").length = 20 := by rfl
  have h0 : ("" : String).length = 0 := by rfl
  rw [String.length_append, h20, h0] at hlen
  omega

/- `Type.verify` passes exactly when the input matches the shape. -/
theorem verify_none_iff_shapeOk (T : CType) (value : List (String × CValue)) :
    verify T value = none ↔ shapeOk T value = true := by
  rw [verify_eq_none_iff]
  unfold shapeOk
  rw [List.all_eq_true]
  constructor
  · intro h p hp
    obtain ⟨f, hfm, hfn⟩ := h.1 p hp
    have hs : (T.fields.find? (fun g => g.name = p.1)).isSome := by
      rw [List.find?_isSome]
      exact ⟨f, hfm, by simp [hfn]⟩
    obtain ⟨f0, hf0⟩ := Option.isSome_iff_exists.mp hs
    unfold coercibleEntry fieldFor
    rw [hf0]
    exact h.2 p hp f0 hf0
  · intro h
    constructor
    · intro p hp
      have hc := h p hp
      unfold coercibleEntry fieldFor at hc
      cases hfind : T.fields.find? (fun g => g.name = p.1) with
      | none => rw [hfind] at hc; exact Bool.noConfusion hc
      | some f =>
        refine ⟨f, List.mem_of_find?_eq_some hfind, ?_⟩
        have := List.find?_some hfind
        simpa using this
    · intro p hp f hf
      have hc := h p hp
      unfold coercibleEntry fieldFor at hc
      rw [hf] at hc
      exact hc

/-- C6: for every fully-qualified type name present in the registry and every
canonical message value for that type (any mix of the supported scalar kinds,
defaults included; field names and numbers distinct), `encodeToAny` succeeds
with an envelope whose type URL is exactly `type.googleapis.com/` followed by
the name, and `decodeAny` on that envelope returns the message unchanged. -/
theorem encodeToAny_decodeAny_roundtrip (reg : Registry) (fqtn : String)
    (T : CType) (M : List (String × CValue))
    (hT : lookupType reg fqtn = some T)
    (hnames : (T.fields.map CField.name).Nodup)
    (hnums : (T.fields.map CField.number).Nodup)
    (hM : validFor T M = true) :
    encodeToAny reg fqtn M
      = .ok ⟨"type.googleapis.com/" ++ fqtn, encodeMessage T M⟩ ∧
    decodeAny reg ⟨"type.googleapis.com/" ++ fqtn, encodeMessage T M⟩
      = .ok M := by
  constructor
  · simp only [encodeToAny, hT, verify_of_valid T M hnames hM,
      fromObject_of_valid T M hnames hM]
  · simp only [decodeAny, if_neg (typeUrl_prepend_ne_empty fqtn),
      stripTypePrefix_prepend, hT,
      decodeMessage_encodeMessage T M hnames hnums hM]

/- A demo registry exercising several scalar kinds, defaults included. -/
def demoCType : CType :=
  ⟨[⟨"s", 1, .string⟩, ⟨"b", 2, .bool⟩, ⟨"i", 3, .int32⟩, ⟨"u", 4, .uint64⟩,
    ⟨"d", 5, .double⟩, ⟨"y", 6, .bytes⟩]⟩

def demoCodecReg : Registry := [("demo.Msg", demoCType)]

def demoCodecMsg : List (String × CValue) :=
  [("s", .str "hi"), ("b", .boolean true), ("i", .i32 (-3)), ("u", .u64 0),
   ("d", .doubleBits 0), ("y", .bytes [1, 255])]

theorem encodeToAny_decodeAny_roundtrip_witness :
    lookupType demoCodecReg "demo.Msg" = some demoCType ∧
    validFor demoCType demoCodecMsg = true ∧
    (encodeToAny demoCodecReg "demo.Msg" demoCodecMsg
        = .ok ⟨"type.googleapis.com/" ++ "demo.Msg",
               encodeMessage demoCType demoCodecMsg⟩ ∧
      decodeAny demoCodecReg
          ⟨"type.googleapis.com/" ++ "demo.Msg",
           encodeMessage demoCType demoCodecMsg⟩
        = .ok demoCodecMsg) :=
  ⟨by decide, by decide,
    encodeToAny_decodeAny_roundtrip demoCodecReg "demo.Msg" demoCType
      demoCodecMsg (by decide) (by decide) (by decide) (by decide)⟩

/-- C2 counterexample: a type URL that does not begin with
`type.googleapis.com/` is not rejected as malformed - the URL is looked up
as-is and, when the registry happens to contain that bare name, the decode
even succeeds; the code has no malformed-URL error at all (its only URL
errors are the empty-URL error and the type-not-found error). -/
theorem decodeAny_no_malformed_url_error :
    decodeAny [("wrong.Type", ⟨[]⟩)] ⟨"wrong.Type", []⟩ = .ok [] := by
  rfl

/-- C2: the URL failure modes the code actually distinguishes: an empty
(falsy) type URL fails with the missing-URL error; a nonempty URL whose
name (after stripping one leading `type.googleapis.com/` if present) is
absent from the registry fails with the type-not-found error naming the
stripped name - in particular a well-formed URL for an unregistered type
fails with the type-not-found error for the embedded name. -/
theorem decodeAny_url_errors (reg : Registry) (env : AnyEnvelope) :
    (env.typeUrl = "" → decodeAny reg env = .error .missingTypeUrl) ∧
    (env.typeUrl ≠ "" → lookupType reg (stripTypePrefix env.typeUrl) = none →
      decodeAny reg env = .error (.typeNotFound (stripTypePrefix env.typeUrl))) ∧
    (∀ fqtn, env.typeUrl = "type.googleapis.com/" ++ fqtn →
      lookupType reg fqtn = none →
      decodeAny reg env = .error (.typeNotFound fqtn)) := by
  refine ⟨?_, ?_, ?_⟩
  · intro h
    unfold decodeAny
    rw [if_pos h]
  · intro h1 h2
    unfold decodeAny
    rw [if_neg h1]
    simp only [h2]
  · intro fqtn hurl hlk
    unfold decodeAny
    rw [hurl]
    rw [if_neg (typeUrl_prepend_ne_empty fqtn)]
    simp only [stripTypePrefix_prepend, hlk]

theorem decodeAny_url_errors_witness :
    "type.googleapis.com/wrong.Type" = "type.googleapis.com/" ++ "wrong.Type" ∧
    lookupType ([] : Registry) "wrong.Type" = none ∧
    decodeAny [] ⟨"type.googleapis.com/wrong.Type", []⟩
      = .error (.typeNotFound "wrong.Type") :=
  ⟨by decide, by decide,
    (decodeAny_url_errors [] ⟨"type.googleapis.com/wrong.Type", []⟩).2.2
      "wrong.Type" (by decide) (by decide)⟩

/-- C3: with the target type present in the registry and a non-empty input
object, `createMessage` and `encodeToAny` fail with the shape-mismatch
(invalid value) error exactly when the input contains a key naming no field
of the type or a value not coercible to its field's declared kind;
otherwise both succeed, producing the materialized message and its
envelope. -/
theorem createMessage_shape_mismatch (reg : Registry) (fqtn : String)
    (T : CType) (value : List (String × CValue))
    (hT : lookupType reg fqtn = some T)
    (hne : value.isEmpty = false) :
    (shapeOk T value = true →
      (createMessage reg fqtn (some value) = .ok (fromObject T value) ∧
       encodeToAny reg fqtn value
        = .ok ⟨"type.googleapis.com/" ++ fqtn,
               encodeMessage T (fromObject T value)⟩)) ∧
    (shapeOk T value = false →
      ∃ msg, createMessage reg fqtn (some value)
          = .error (.invalidValue fqtn msg) ∧
        encodeToAny reg fqtn value = .error (.invalidValue fqtn msg)) := by
  constructor
  · intro hok
    have hv : verify T value = none := (verify_none_iff_shapeOk T value).mpr hok
    constructor
    · unfold createMessage
      simp [hT, hne, hv]
    · unfold encodeToAny
      simp [hT, hv]
  · intro hbad
    cases hverify : verify T value with
    | none =>
      rw [verify_none_iff_shapeOk] at hverify
      rw [hverify] at hbad
      exact Bool.noConfusion hbad
    | some msg =>
      refine ⟨msg, ?_, ?_⟩
      · unfold createMessage
        simp [hT, hne, hverify]
      · unfold encodeToAny
        simp [hT, hverify]

theorem createMessage_shape_mismatch_witness :
    lookupType demoCodecReg "demo.Msg" = some demoCType ∧
    ([("zz", CValue.str "x")].isEmpty = false) ∧
    shapeOk demoCType [("zz", CValue.str "x")] = false ∧
    ∃ msg, createMessage demoCodecReg "demo.Msg"
        (some [("zz", CValue.str "x")])
        = .error (.invalidValue "demo.Msg" msg) ∧
      encodeToAny demoCodecReg "demo.Msg" [("zz", CValue.str "x")]
        = .error (.invalidValue "demo.Msg" msg) :=
  ⟨by decide, by decide, by decide,
    (createMessage_shape_mismatch demoCodecReg "demo.Msg" demoCType
      [("zz", CValue.str "x")] (by decide) (by decide)).2 (by decide)⟩


end GMcp
